import Mathlib

/-!
Verification of `validate_rules.py`, a validator for Cursor rule files.

The program is a single linear validation routine.  We embed it shallowly:
file contents are `List Char`, each fixed regular expression of the source is
translated into an executable matching function with the exact semantics the
Python `re` engine gives it on that pattern (anchors with `re.MULTILINE` are
modelled by scanning the suffix starting at every line start, `\s` by the
ASCII whitespace characters, greedy/lazy repetition by maximal/minimal
matches with the backtracking the fixed pattern allows), and the mutable
`RuleValidator` state (errors, warnings, counters) is threaded explicitly.
-/

set_option maxHeartbeats 1000000

namespace ValidateRules

/-- Characters of a string literal, the representation of Python `str` used
throughout the embedding. -/
def toL (s : String) : List Char := s.toList

/-- Python whitespace as matched by `\s` and stripped by `str.strip()`,
restricted to the ASCII range (the inputs modelled here are ASCII). -/
def pySpace (c : Char) : Bool :=
  c == ' ' || c == '\t' || c == '\n' || c == '\r' || c == '\x0b' || c == '\x0c'

/-- Python `str.strip()`: remove whitespace from both ends. -/
def trim (l : List Char) : List Char :=
  ((l.dropWhile pySpace).reverse.dropWhile pySpace).reverse

/-- Source lines 61-64: remove one layer of matching surrounding quotes
(`desc_value[1:-1]`), double quotes first, then single quotes. -/
def stripQuotes (l : List Char) : List Char :=
  if l.head? = some '"' ∧ l.getLast? = some '"' then (l.drop 1).dropLast
  else if l.head? = some '\'' ∧ l.getLast? = some '\'' then (l.drop 1).dropLast
  else l

/-- Case-insensitive character comparison, as `re.IGNORECASE` compares
(ASCII case folding). -/
def lowEq (a b : Char) : Bool := a.toLower == b.toLower

/-- Case-insensitive "starts with" for `re.IGNORECASE` literal matching. -/
def ciStarts : List Char → List Char → Bool
  | [], _ => true
  | _ :: _, [] => false
  | k :: ks, c :: cs => lowEq k c && ciStarts ks cs

/-- The suffixes of `s` starting at each position where `^` matches under
`re.MULTILINE`: the whole string, and the suffix after every newline, in
left-to-right order.  `re.search` of an `^`-anchored pattern tries exactly
these positions in this order. -/
def lineSuffixesOf : List Char → List (List Char)
  | [] => [[]]
  | c :: r =>
    if c = '\n' then (c :: r) :: lineSuffixesOf r
    else
      match lineSuffixesOf r with
      | [] => [[c]]
      | t :: ts => (c :: t) :: ts

/-- First position whose matcher succeeds, scanning left to right: the
leftmost-match rule of `re.search`. -/
def firstMatch {α : Type} (m : List Char → Option α) : List (List Char) → Option α
  | [] => none
  | u :: us =>
    match m u with
    | some a => some a
    | none => firstMatch m us

/-- Greedy `(.+)$`: the (nonempty) run of non-newline characters at the
current position; `$` then holds at its end (end of string or before a
newline, both valid under `re.MULTILINE`). -/
def dotPlus (u : List Char) : Option (List Char) :=
  let g := u.takeWhile (fun c => c != '\n')
  if g.isEmpty then none else some g

/-- Backtracking for `\s*(.+)$`: the engine first lets `\s*` consume `k`
whitespace characters (maximal first), then tries `(.+)$`; `k` decreases
until a match is found. -/
def tryWs (t : List Char) : Nat → Option (List Char)
  | 0 => dotPlus t
  | k+1 =>
    match dotPlus (t.drop (k+1)) with
    | some g => some g
    | none => tryWs t k

def descKey : List Char := toL "description:"

/-- Source line 57: one attempt of `^description:\s*(.+)$` at a line start;
returns the captured group. -/
def matchDesc (s : List Char) : Option (List Char) :=
  if descKey.isPrefixOf s then
    let t := s.drop descKey.length
    tryWs t (t.takeWhile pySpace).length
  else none

def aaKey : List Char := toL "alwaysApply:"

/-- Whether `$` matches at this position (`re.MULTILINE`). -/
def lineEnds : List Char → Bool
  | [] => true
  | c :: _ => c == '\n'

/-- The `(true|false)$` part of source line 69, case-insensitively.  Since
`t`/`f` are not whitespace, only the maximal `\s*` consumption can be
followed by the literal, so no further backtracking arises. -/
def matchBoolLit (v : List Char) : Option Bool :=
  if ciStarts (toL "true") v && lineEnds (v.drop 4) then some true
  else if ciStarts (toL "false") v && lineEnds (v.drop 5) then some false
  else none

/-- Source line 69: one attempt of `^alwaysApply:\s*(true|false)$` with
`re.MULTILINE | re.IGNORECASE` at a line start. -/
def matchAA (s : List Char) : Option Bool :=
  if ciStarts aaKey s then matchBoolLit ((s.drop aaKey.length).dropWhile pySpace)
  else none

def gKey : List Char := toL "globs:"

/-- Source line 76: one attempt of `^globs:\s*\[(.*?)\]` with
`re.MULTILINE | re.DOTALL` at a line start; the lazy group runs to the
first `]` and may span newlines (DOTALL). -/
def matchGlobsBracket (s : List Char) : Option (List Char) :=
  if gKey.isPrefixOf s then
    match (s.drop gKey.length).dropWhile pySpace with
    | '[' :: v =>
      if v.any (fun c => c == ']') then some (v.takeWhile (fun c => c != ']'))
      else none
    | _ => none
  else none

/-- Source line 86: one attempt of `^globs:\s*\[?\s*\]` with `re.MULTILINE`
at a line start. -/
def matchGlobsEmpty (s : List Char) : Option Unit :=
  if gKey.isPrefixOf s then
    match (s.drop gKey.length).dropWhile pySpace with
    | '[' :: v => if (v.dropWhile pySpace).head? = some ']' then some () else none
    | ']' :: _ => some ()
    | _ => none
  else none

def isQuoteCh (c : Char) : Bool := c == '"' || c == '\''

/-- Scanner for `re.findall(r'["\']([^"\']+)["\']', s)`: the engine walks
left to right; outside a match attempt (`none` state) a quote of either
kind opens a group; inside (`some acc`, accumulated characters reversed) a
quote closes the group when it is nonempty (emitting it, scanning resumes
after the closing quote) and re-opens when the group would be empty
(`[^"\']+` needs at least one character, so the attempt at the previous
quote fails and the scan restarts at the current one); an unclosed group at
the end of the string yields no further match. -/
def findallAux : Option (List Char) → List Char → List (List Char)
  | _, [] => []
  | none, c :: r => if isQuoteCh c then findallAux (some []) r else findallAux none r
  | some acc, c :: r =>
    if isQuoteCh c then
      if acc.isEmpty then findallAux (some []) r
      else acc.reverse :: findallAux none r
    else findallAux (some (c :: acc)) r

/-- Source line 81: `re.findall(r'["\']([^"\']+)["\']', globs_str)` — all
non-overlapping leftmost matches: a quote (of either kind), a nonempty run
of non-quote characters, a closing quote (of either kind). -/
def findallQuoted (l : List Char) : List (List Char) := findallAux none l

/-- The closing delimiter pattern `\n---\n` of source line 44. -/
def marker : List Char := toL "\n---\n"

/-- The opening delimiter `---\n` of source line 44. -/
def hdr : List Char := toL "---\n"

/-- Lazy `(.*?)\n---\n` of source line 44: the shortest split of `s` as
`fm ++ marker ++ body`; returns `(fm, body)`. -/
def splitOnMarker : List Char → Option (List Char × List Char)
  | [] => none
  | c :: s =>
    if marker.isPrefixOf (c :: s) then some ([], (c :: s).drop marker.length)
    else
      match splitOnMarker s with
      | some (fm, body) => some (c :: fm, body)
      | none => none

/-- Source line 44: `re.match(r"^---\n(.*?)\n---\n", content, re.DOTALL)`.
Returns the frontmatter block (group 1) and the text after the whole
match. -/
def frontmatterMatch (content : List Char) : Option (List Char × List Char) :=
  if hdr.isPrefixOf content then splitOnMarker (content.drop hdr.length) else none

/-- Source lines 57-67: the parsed `description` value — captured group,
stripped, one layer of quotes removed; `None` when the search fails. -/
def parseDescription (fm : List Char) : Option (List Char) :=
  match firstMatch matchDesc (lineSuffixesOf fm) with
  | some g => some (stripQuotes (trim g))
  | none => none

/-- Source lines 69-73: the parsed `alwaysApply` value. -/
def parseAlwaysApply (fm : List Char) : Option Bool :=
  firstMatch matchAA (lineSuffixesOf fm)

/-- Source lines 75-90: the parsed `globs` value.  In the source every
assignment to `frontmatter["globs"]` is a list of strings or `None`, so the
value is typed `Option (List (List Char))` here. -/
def parseGlobs (fm : List Char) : Option (List (List Char)) :=
  match firstMatch matchGlobsBracket (lineSuffixesOf fm) with
  | some g =>
    let gs := trim g
    if gs.isEmpty then some [] else some (findallQuoted gs)
  | none =>
    match firstMatch matchGlobsEmpty (lineSuffixesOf fm) with
    | some _ => some []
    | none => none

/-- Parsed header fields (source dict `frontmatter`); each key is always
assigned either `None` or a value of the field's type. -/
structure Frontmatter where
  description : Option (List Char)
  alwaysApply : Option Bool
  globs : Option (List (List Char))
deriving DecidableEq

/-- The empty dict `{}` returned on the early-exit paths of
`validate_file` (only `.get` with a default ever reads it). -/
def emptyFM : Frontmatter := ⟨none, none, none⟩

/-- The kinds of error and warning messages the validator can record. -/
inductive MsgKind where
  | unreadable
  | missingHeader
  | malformedHeader
  | missingDescription
  | emptyDescription
  | missingAlwaysApply
  | globsNotList
  | dirMissing
  | noFiles
  | emptyBody
deriving DecidableEq, BEq

/-- One recorded message: the file (or directory) path it mentions and its
kind. -/
structure Err where
  path : String
  kind : MsgKind
deriving DecidableEq, BEq

/-- The `self.stats` dict of source lines 17-24. -/
structure Stats where
  total_files : Nat
  valid_files : Nat
  invalid_files : Nat
  files_without_description : Nat
  files_without_alwaysApply : Nat
  files_with_invalid_yaml : Nat
deriving DecidableEq

/-- The mutable state of a `RuleValidator`. -/
structure VState where
  errors : List Err
  warnings : List Err
  stats : Stats
deriving DecidableEq

def addErr (st : VState) (p : String) (k : MsgKind) : VState :=
  { st with errors := st.errors ++ [⟨p, k⟩] }

def addWarn (st : VState) (p : String) (k : MsgKind) : VState :=
  { st with warnings := st.warnings ++ [⟨p, k⟩] }

def incTotal (st : VState) : VState :=
  { st with stats := { st.stats with total_files := st.stats.total_files + 1 } }

def incValid (st : VState) : VState :=
  { st with stats := { st.stats with valid_files := st.stats.valid_files + 1 } }

def incInvalid (st : VState) : VState :=
  { st with stats := { st.stats with invalid_files := st.stats.invalid_files + 1 } }

def incNoDesc (st : VState) : VState :=
  { st with stats := { st.stats with files_without_description := st.stats.files_without_description + 1 } }

def incNoAA (st : VState) : VState :=
  { st with stats := { st.stats with files_without_alwaysApply := st.stats.files_without_alwaysApply + 1 } }

/-- Source lines 95-101: the `description` check; returns the updated state
and whether this check set `has_errors`. -/
def descCheck (st : VState) (p : String) (fm : Frontmatter) : VState × Bool :=
  match fm.description with
  | none => (incNoDesc (addErr st p .missingDescription), true)
  | some s =>
    if s.isEmpty || (trim s).isEmpty then (addErr st p .emptyDescription, true)
    else (st, false)

/-- Source lines 103-106: the `alwaysApply` check. -/
def aaCheck (st : VState) (p : String) (fm : Frontmatter) : VState × Bool :=
  match fm.alwaysApply with
  | none => (incNoAA (addErr st p .missingAlwaysApply), true)
  | some _ => (st, false)

/-- Python `isinstance(x, list)` on the parsed globs value. -/
def pyIsList : Option (List (List Char)) → Bool
  | none => false
  | some _ => true

/-- Source lines 108-111: the wrong-type check for `globs`. -/
def globsCheck (st : VState) (p : String) (fm : Frontmatter) : VState × Bool :=
  if fm.globs.isSome && !pyIsList fm.globs then (addErr st p .globsNotList, true)
  else (st, false)

/-- Source lines 113-116: warn when the text after the header block is
empty or whitespace-only. -/
def bodyCheck (st : VState) (p : String) (body : List Char) : VState :=
  if (trim body).isEmpty then addWarn st p .emptyBody else st

/-- Source lines 92-123: the required-field checks, the body warning, and
the final valid/invalid accounting. -/
def checkFrontmatter (st : VState) (p : String) (fm : Frontmatter) (body : List Char) :
    VState × Bool × Frontmatter :=
  let r1 := descCheck st p fm
  let r2 := aaCheck r1.1 p fm
  let r3 := globsCheck r2.1 p fm
  let st4 := bodyCheck r3.1 p body
  if r1.2 || r2.2 || r3.2 then (incInvalid st4, false, fm)
  else (incValid st4, true, fm)

def dashes3 : List Char := toL "---"

/-- Source lines 26-123, `RuleValidator.validate_file`.  The file content is
passed as `some content` (successful `read_text`) or `none` (the `except`
branch of lines 30-35). -/
def validate_file (st : VState) (p : String) (content? : Option (List Char)) :
    VState × Bool × Frontmatter :=
  let st := incTotal st
  match content? with
  | none => (incInvalid (addErr st p .unreadable), false, emptyFM)
  | some content =>
    if dashes3.isPrefixOf content then
      match frontmatterMatch content with
      | none => (incInvalid (addErr st p .malformedHeader), false, emptyFM)
      | some (fmStr, body) =>
        checkFrontmatter st p
          ⟨parseDescription fmStr, parseAlwaysApply fmStr, parseGlobs fmStr⟩ body
    else (incInvalid (addErr st p .missingHeader), false, emptyFM)

/-- The sequential loop of source lines 141-149 (the printing inside the
loop goes to stdout and touches no state). -/
def runFiles (st : VState) : List (String × Option (List Char)) → VState
  | [] => st
  | (p, c) :: fs => runFiles (validate_file st p c).1 fs

def rulesDirPath : String := ".cursor/rules"

/-- Source lines 125-151, `RuleValidator.validate_all`.  `dirExists` models
`self.rules_dir.exists()`; `files` is the sorted list of discovered `.mdc`
files, each given with its path and readable content (`none` when reading
raises). -/
def validate_all (st : VState) (dirExists : Bool) (files : List (String × Option (List Char))) :
    VState × Bool :=
  if !dirExists then (addErr st rulesDirPath .dirMissing, false)
  else if files.isEmpty then (addErr st rulesDirPath .noFiles, false)
  else
    let st2 := runFiles st files
    (st2, st2.errors.isEmpty)

/-- One line of the report of source lines 153-188. -/
inductive RLine where
  | sep
  | header
  | statsHeader
  | statsTotal (n : Nat)
  | statsValid (n : Nat)
  | statsInvalid (n : Nat)
  | statsNoDesc (n : Nat)
  | statsNoAA (n : Nat)
  | statsInvalidYaml (n : Nat)
  | errHeader (n : Nat)
  | errLine (e : Err)
  | warnHeader (n : Nat)
  | warnLine (e : Err)
  | allClean
  | validWithWarnings
  | errorsPresent
deriving DecidableEq

/-- Source lines 153-188, `RuleValidator.print_report`, as the list of
lines it prints. -/
def printReport (st : VState) : List RLine :=
  [RLine.sep, RLine.header, RLine.sep, RLine.statsHeader,
   RLine.statsTotal st.stats.total_files,
   RLine.statsValid st.stats.valid_files,
   RLine.statsInvalid st.stats.invalid_files]
  ++ (if st.stats.files_without_description > 0 then [RLine.statsNoDesc st.stats.files_without_description] else [])
  ++ (if st.stats.files_without_alwaysApply > 0 then [RLine.statsNoAA st.stats.files_without_alwaysApply] else [])
  ++ (if st.stats.files_with_invalid_yaml > 0 then [RLine.statsInvalidYaml st.stats.files_with_invalid_yaml] else [])
  ++ (if st.errors.isEmpty then [] else RLine.errHeader st.errors.length :: st.errors.map RLine.errLine)
  ++ (if st.warnings.isEmpty then [] else RLine.warnHeader st.warnings.length :: st.warnings.map RLine.warnLine)
  ++ (if st.errors.isEmpty && st.warnings.isEmpty then [RLine.allClean]
      else if st.errors.isEmpty then [RLine.validWithWarnings]
      else [RLine.errorsPresent])
  ++ [RLine.sep]

/-- The fresh validator state of source lines 13-24. -/
def initState : VState := ⟨[], [], ⟨0, 0, 0, 0, 0, 0⟩⟩

/-- Source lines 190-196, `main`: run everything and report. -/
def mainRun (dirExists : Bool) (files : List (String × Option (List Char))) : VState × Bool :=
  validate_all initState dirExists files

/-- The process exit status chosen at source line 196. -/
def mainExitCode (dirExists : Bool) (files : List (String × Option (List Char))) : Nat :=
  if (mainRun dirExists files).2 then 0 else 1

/-- The lines of a piece of text, splitting at every newline (Python
`str.splitlines`-style for `\n` only); used to state line-level claims. -/
def linesOf : List Char → List (List Char)
  | [] => [[]]
  | c :: r =>
    if c = '\n' then [] :: linesOf r
    else
      match linesOf r with
      | [] => [[c]]
      | l :: ls => (c :: l) :: ls

/-- `u` is a suffix of `s` starting at a line start: either all of `s`, or
everything after some newline. -/
def LineSuffix (s u : List Char) : Prop := u = s ∨ ∃ p, s = p ++ '\n' :: u

/-- Declarative shape of an occurrence the `alwaysApply` extraction can
succeed on: at some line start, the key (case-insensitively), optional
whitespace, the literal `true`/`false` (case-insensitively), ending a
line. -/
def AAShape (fm : List Char) (b : Bool) : Prop :=
  ∃ u k w lit rest, LineSuffix fm u ∧ u = k ++ (w ++ (lit ++ rest)) ∧
    k.map Char.toLower = toL "alwaysapply:" ∧
    (∀ c ∈ w, pySpace c = true) ∧
    lit.map Char.toLower = toL (if b then "true" else "false") ∧
    (rest = [] ∨ rest.head? = some '\n')

/-- Content of the shape the header-extraction regex accepts: opening
delimiter line, a block, a closing delimiter line surrounded by
newlines, and arbitrary remaining text. -/
def HeaderShape (content : List Char) : Prop :=
  ∃ fm rest, content = hdr ++ (fm ++ (marker ++ rest))

/-- A quoted list item as written in a conforming file. -/
def quoteItem (g : List Char) : List Char := '"' :: (g ++ ['"'])

/-- Join pieces with a separator (used for the comma-separated list). -/
def joinSep (sep : List Char) : List (List Char) → List Char
  | [] => []
  | [x] => x
  | x :: xs => x ++ (sep ++ joinSep sep xs)

/-- The text between the brackets of a conforming `globs` list. -/
def globsInner (gs : List (List Char)) : List Char :=
  joinSep (toL ", ") (gs.map quoteItem)

/-- The `description` line of a schema-conforming file. -/
def dLineOf (desc : List Char) : List Char :=
  descKey ++ (' ' :: '"' :: (desc ++ ['"']))

/-- The `alwaysApply` line of a schema-conforming file. -/
def aLineOf (b : Bool) : List Char :=
  aaKey ++ (' ' :: (if b then toL "true" else toL "false"))

/-- The `globs` line of a schema-conforming file. -/
def gLineOf (gs : List (List Char)) : List Char :=
  gKey ++ (' ' :: '[' :: (globsInner gs ++ [']']))

/-- The header block of a schema-conforming file. -/
def mkFM (desc : List Char) (b : Bool) (gs : List (List Char)) : List Char :=
  dLineOf desc ++ ('\n' :: (aLineOf b ++ ('\n' :: gLineOf gs)))

/-- A whole schema-conforming file: delimited header block with a quoted
non-blank description, a boolean `alwaysApply` and a single-line bracketed
list of quoted globs, followed by body text. -/
def mkContent (desc : List Char) (b : Bool) (gs : List (List Char)) (body : List Char) :
    List Char :=
  hdr ++ (mkFM desc b gs ++ (marker ++ body))

/-- Side conditions making `mkContent` schema-conforming: the description
is single-line and non-blank, and every glob item is nonempty and free of
quotes, brackets-closers and newlines. -/
abbrev Conforming (desc : List Char) (gs : List (List Char)) : Prop :=
  '\n' ∉ desc ∧ trim desc ≠ [] ∧
    ∀ g ∈ gs, g ≠ [] ∧ ∀ c ∈ g, isQuoteCh c = false ∧ c ≠ ']' ∧ c ≠ '\n'

/-! ### Generic list facts -/

theorem takeWhile_append_stop {p : Char → Bool} {a r : List Char} {x : Char}
    (ha : ∀ c ∈ a, p c = true) (hx : p x = false) :
    (a ++ x :: r).takeWhile p = a := by
  rw [List.takeWhile_append_of_pos ha]
  simp [List.takeWhile_cons, hx]

theorem dropWhile_append_stop {p : Char → Bool} {a r : List Char} {x : Char}
    (ha : ∀ c ∈ a, p c = true) (hx : p x = false) :
    (a ++ x :: r).dropWhile p = x :: r := by
  rw [List.dropWhile_append_of_pos ha]
  simp [List.dropWhile_cons, hx]

theorem dropWhile_cons_false {p : Char → Bool} {c : Char} {r : List Char} (h : p c = false) :
    (c :: r).dropWhile p = c :: r := by
  simp [List.dropWhile_cons, h]

theorem isPrefixOf_decomp {k s : List Char} (h : k.isPrefixOf s = true) : ∃ t, s = k ++ t := by
  obtain ⟨t, ht⟩ := List.isPrefixOf_iff_prefix.mp h
  exact ⟨t, ht.symm⟩

theorem isPrefixOf_append_self (k r : List Char) : k.isPrefixOf (k ++ r) = true :=
  List.isPrefixOf_iff_prefix.mpr (List.prefix_append _ _)

/-! ### Line-start suffixes -/

theorem lineSuffixesOf_decomp (s : List Char) :
    ∃ ts, lineSuffixesOf s = s :: ts ∧ ∀ u ∈ ts, ∃ p, s = p ++ '\n' :: u := by
  induction s with
  | nil => exact ⟨[], rfl, by simp⟩
  | cons c r ih =>
    obtain ⟨ts, hts, hmem⟩ := ih
    by_cases hc : c = '\n'
    · subst hc
      refine ⟨lineSuffixesOf r, by simp [lineSuffixesOf], ?_⟩
      intro u hu
      rw [hts] at hu
      rcases List.mem_cons.mp hu with hu | hu
      · exact ⟨[], by simp [hu]⟩
      · obtain ⟨p, hp⟩ := hmem u hu
        exact ⟨'\n' :: p, by simp [hp]⟩
    · refine ⟨ts, ?_, ?_⟩
      · simp only [lineSuffixesOf, if_neg hc, hts]
      · intro u hu
        obtain ⟨p, hp⟩ := hmem u hu
        exact ⟨c :: p, by simp [hp]⟩

theorem lineSuffix_of_mem {s u : List Char} (h : u ∈ lineSuffixesOf s) : LineSuffix s u := by
  obtain ⟨ts, hts, hmem⟩ := lineSuffixesOf_decomp s
  rw [hts] at h
  rcases List.mem_cons.mp h with h | h
  · exact Or.inl h
  · obtain ⟨p, hp⟩ := hmem u h
    exact Or.inr ⟨p, hp⟩

theorem self_mem_lineSuffixesOf (s : List Char) : s ∈ lineSuffixesOf s := by
  obtain ⟨ts, hts, -⟩ := lineSuffixesOf_decomp s
  rw [hts]
  exact List.mem_cons_self _ _

theorem mem_lineSuffixesOf_of_split (p u : List Char) : u ∈ lineSuffixesOf (p ++ '\n' :: u) := by
  induction p with
  | nil =>
    simp only [List.nil_append, lineSuffixesOf, if_pos rfl]
    exact List.mem_cons_of_mem _ (self_mem_lineSuffixesOf u)
  | cons c p ih =>
    by_cases hc : c = '\n'
    · subst hc
      simp only [List.cons_append, lineSuffixesOf, if_pos rfl]
      exact List.mem_cons_of_mem _ ih
    · obtain ⟨ts, hts, -⟩ := lineSuffixesOf_decomp (p ++ '\n' :: u)
      have hu : u ∈ ts := by
        have h2 := ih
        rw [hts] at h2
        rcases List.mem_cons.mp h2 with h2 | h2
        · exfalso
          have h3 : u.length = (p ++ '\n' :: u).length := by rw [← h2]
          simp [List.length_append] at h3
          omega
        · exact h2
      show u ∈ lineSuffixesOf (c :: (p ++ '\n' :: u))
      simp only [List.cons_append, lineSuffixesOf, if_neg hc, hts]
      exact List.mem_cons_of_mem _ hu

theorem mem_lineSuffixesOf_of_lineSuffix {s u : List Char} (h : LineSuffix s u) :
    u ∈ lineSuffixesOf s := by
  rcases h with h | ⟨p, hp⟩
  · rw [h]; exact self_mem_lineSuffixesOf s
  · rw [hp]; exact mem_lineSuffixesOf_of_split p u

/-! ### Leftmost-match scanning -/

theorem firstMatch_eq_none {α : Type} {m : List Char → Option α} {L : List (List Char)}
    (h : ∀ u ∈ L, m u = none) : firstMatch m L = none := by
  induction L with
  | nil => rfl
  | cons u us ih =>
    have hu := h u (List.mem_cons_self _ _)
    simp only [firstMatch, hu]
    exact ih fun v hv => h v (List.mem_cons_of_mem _ hv)

theorem firstMatch_sound {α : Type} {m : List Char → Option α} {L : List (List Char)} {a : α}
    (h : firstMatch m L = some a) : ∃ u ∈ L, m u = some a := by
  induction L with
  | nil => simp [firstMatch] at h
  | cons u us ih =>
    cases hu : m u with
    | some b =>
      simp only [firstMatch, hu] at h
      exact ⟨u, List.mem_cons_self _ _, by rw [hu, h]⟩
    | none =>
      simp only [firstMatch, hu] at h
      obtain ⟨v, hv, hmv⟩ := ih h
      exact ⟨v, List.mem_cons_of_mem _ hv, hmv⟩

theorem firstMatch_of_unique {α : Type} {m : List Char → Option α} {L : List (List Char)}
    {u : List Char} {a : α} (hu : u ∈ L) (hm : m u = some a)
    (hothers : ∀ v ∈ L, v ≠ u → m v = none) : firstMatch m L = some a := by
  induction L with
  | nil => simp at hu
  | cons v vs ih =>
    by_cases hvu : v = u
    · subst hvu
      simp only [firstMatch, hm]
    · have hv : m v = none := hothers v (List.mem_cons_self _ _) hvu
      simp only [firstMatch, hv]
      have hu2 : u ∈ vs := by
        rcases List.mem_cons.mp hu with h | h
        · exact absurd h.symm hvu
        · exact h
      exact ih hu2 fun w hw => hothers w (List.mem_cons_of_mem _ hw)

/-! ### The frontmatter delimiter split -/

theorem marker_length : marker.length = 5 := rfl

theorem splitOnMarker_pos {s : List Char} (hs : s ≠ []) (hm : marker.isPrefixOf s = true) :
    splitOnMarker s = some ([], s.drop marker.length) := by
  cases s with
  | nil => exact absurd rfl hs
  | cons c t => simp only [splitOnMarker, hm, if_true]

theorem splitOnMarker_neg {c : Char} {s : List Char} (hm : marker.isPrefixOf (c :: s) = false) :
    splitOnMarker (c :: s) =
      match splitOnMarker s with
      | some (fm, body) => some (c :: fm, body)
      | none => none := by
  simp only [splitOnMarker, hm]
  rfl

theorem splitOnMarker_isSome_iff (s : List Char) :
    (splitOnMarker s).isSome ↔ ∃ a b, s = a ++ (marker ++ b) := by
  induction s with
  | nil =>
    simp only [splitOnMarker, Option.isSome_none, Bool.false_eq_true, false_iff]
    rintro ⟨a, b, hab⟩
    have hl := congrArg List.length hab
    simp [List.length_append, marker_length] at hl
    omega
  | cons c t ih =>
    cases hm : marker.isPrefixOf (c :: t) with
    | true =>
      rw [splitOnMarker_pos (by simp) hm]
      simp only [Option.isSome_some, true_iff]
      obtain ⟨r, hr⟩ := isPrefixOf_decomp hm
      exact ⟨[], r, by simp [hr]⟩
    | false =>
      rw [splitOnMarker_neg hm]
      constructor
      · intro h
        have h2 : (splitOnMarker t).isSome := by
          cases hst : splitOnMarker t with
          | none => rw [hst] at h; simp at h
          | some v => simp
        obtain ⟨a, b, hab⟩ := ih.mp h2
        exact ⟨c :: a, b, by simp [hab]⟩
      · rintro ⟨a, b, hab⟩
        cases a with
        | nil =>
          exfalso
          simp only [List.nil_append] at hab
          rw [hab, isPrefixOf_append_self] at hm
          simp at hm
        | cons d a' =>
          have hcd : t = a' ++ (marker ++ b) := by
            simp only [List.cons_append, List.cons.injEq] at hab
            exact hab.2
          have h2 : (splitOnMarker t).isSome := ih.mpr ⟨a', b, hcd⟩
          cases hst : splitOnMarker t with
          | none => rw [hst] at h2; simp at h2
          | some v => simp

theorem splitOnMarker_append (fm body : List Char)
    (h : ∀ u, u <:+ fm → u ≠ [] → marker.isPrefixOf (u ++ (marker ++ body)) = false) :
    splitOnMarker (fm ++ (marker ++ body)) = some (fm, body) := by
  induction fm with
  | nil =>
    simp only [List.nil_append]
    have hne : marker ++ body ≠ [] := by
      intro hx
      exact absurd (List.append_eq_nil.mp hx).1 (by decide)
    rw [splitOnMarker_pos hne (isPrefixOf_append_self marker body)]
    simp [List.drop_left]
  | cons c fm' ih =>
    have hneg : marker.isPrefixOf ((c :: fm') ++ (marker ++ body)) = false :=
      h (c :: fm') (List.suffix_refl _) (by simp)
    rw [List.cons_append, splitOnMarker_neg (by simpa using hneg)]
    rw [ih fun u hu hne => h u (hu.trans (List.suffix_cons c fm')) hne]

/-! ### Case-insensitive matching -/

theorem ciStarts_append_self (k r : List Char) : ciStarts k (k ++ r) = true := by
  induction k with
  | nil => rfl
  | cons c ks ih => simp [ciStarts, lowEq, ih]

theorem ciStarts_sound : ∀ {k s : List Char}, ciStarts k s = true →
    ∃ k2 r, s = k2 ++ r ∧ k2.length = k.length ∧ k2.map Char.toLower = k.map Char.toLower := by
  intro k
  induction k with
  | nil => exact fun h => ⟨[], _, rfl, rfl, rfl⟩
  | cons c ks ih =>
    intro s h
    cases s with
    | nil => simp [ciStarts] at h
    | cons d t =>
      simp only [ciStarts, Bool.and_eq_true] at h
      obtain ⟨k2, r, ht, hl, hmap⟩ := ih h.2
      have hcd : d.toLower = c.toLower := by
        have := h.1
        simp only [lowEq, beq_iff_eq] at this
        exact this.symm
      exact ⟨d :: k2, r, by simp [ht], by simp [hl], by simp [hmap, hcd]⟩

/-! ### Stripping -/

theorem trim_eq_self {l : List Char}
    (h1 : ∀ c, l.head? = some c → pySpace c = false)
    (h2 : ∀ c, l.getLast? = some c → pySpace c = false) : trim l = l := by
  cases l with
  | nil => rfl
  | cons c r =>
    have hc : pySpace c = false := h1 c rfl
    unfold trim
    rw [dropWhile_cons_false hc]
    cases hrev : (c :: r).reverse with
    | nil => simp at hrev
    | cons d t =>
      have hd : pySpace d = false := by
        apply h2
        rw [List.getLast?_eq_head?_reverse, hrev]
        rfl
      rw [dropWhile_cons_false hd, ← hrev, List.reverse_reverse]

theorem stripQuotes_dquotes (m : List Char) : stripQuotes ('"' :: (m ++ ['"'])) = m := by
  unfold stripQuotes
  rw [if_pos]
  · simp
  · refine ⟨rfl, ?_⟩
    rw [show ('"' :: (m ++ ['"'])) = ('"' :: m) ++ ['"'] by simp]
    exact List.getLast?_concat _

/-! ### Behaviour of the individual checks -/

theorem descBlank_eq (s : List Char) : (s.isEmpty || (trim s).isEmpty) = (trim s).isEmpty := by
  cases s with
  | nil => rfl
  | cons c r => simp [List.isEmpty]

theorem descCheck_cases (st : VState) (p : String) (fm : Frontmatter) :
    (fm.description = none ∧ descCheck st p fm = (incNoDesc (addErr st p .missingDescription), true)) ∨
    (∃ s, fm.description = some s ∧ (trim s).isEmpty = true ∧
      descCheck st p fm = (addErr st p .emptyDescription, true)) ∨
    (∃ s, fm.description = some s ∧ (trim s).isEmpty = false ∧ descCheck st p fm = (st, false)) := by
  unfold descCheck
  split
  · rename_i hd
    exact Or.inl ⟨hd, rfl⟩
  · rename_i s hd
    rw [descBlank_eq s]
    cases hb : (trim s).isEmpty with
    | true => exact Or.inr (Or.inl ⟨s, hd, hb, by simp⟩)
    | false => exact Or.inr (Or.inr ⟨s, hd, hb, by simp⟩)

theorem aaCheck_cases (st : VState) (p : String) (fm : Frontmatter) :
    (fm.alwaysApply = none ∧ aaCheck st p fm = (incNoAA (addErr st p .missingAlwaysApply), true)) ∨
    (∃ b, fm.alwaysApply = some b ∧ aaCheck st p fm = (st, false)) := by
  unfold aaCheck
  split
  · rename_i hd
    exact Or.inl ⟨hd, rfl⟩
  · rename_i b hd
    exact Or.inr ⟨b, hd, rfl⟩

theorem globsCheck_eq (st : VState) (p : String) (fm : Frontmatter) :
    globsCheck st p fm = (st, false) := by
  unfold globsCheck
  cases hg : fm.globs <;> simp [pyIsList, hg]

theorem bodyCheck_errors (st : VState) (p : String) (body : List Char) :
    (bodyCheck st p body).errors = st.errors := by
  unfold bodyCheck
  split <;> rfl

theorem bodyCheck_stats (st : VState) (p : String) (body : List Char) :
    (bodyCheck st p body).stats = st.stats := by
  unfold bodyCheck
  split <;> rfl

theorem descCheck_stats (st : VState) (p : String) (fm : Frontmatter) :
    (descCheck st p fm).1.stats = st.stats ∨
    (descCheck st p fm).1.stats =
      { st.stats with files_without_description := st.stats.files_without_description + 1 } := by
  rcases descCheck_cases st p fm with ⟨-, h⟩ | ⟨s, -, -, h⟩ | ⟨s, -, -, h⟩ <;> rw [h]
  · exact Or.inr rfl
  · exact Or.inl rfl
  · exact Or.inl rfl

theorem aaCheck_stats (st : VState) (p : String) (fm : Frontmatter) :
    (aaCheck st p fm).1.stats = st.stats ∨
    (aaCheck st p fm).1.stats =
      { st.stats with files_without_alwaysApply := st.stats.files_without_alwaysApply + 1 } := by
  rcases aaCheck_cases st p fm with ⟨-, h⟩ | ⟨b, -, h⟩ <;> rw [h]
  · exact Or.inr rfl
  · exact Or.inl rfl

theorem descCheck_errors_ext (st : VState) (p : String) (fm : Frontmatter) :
    ∃ tl, (descCheck st p fm).1.errors = st.errors ++ tl := by
  rcases descCheck_cases st p fm with ⟨-, h⟩ | ⟨s, -, -, h⟩ | ⟨s, -, -, h⟩ <;> rw [h]
  · exact ⟨[⟨p, .missingDescription⟩], rfl⟩
  · exact ⟨[⟨p, .emptyDescription⟩], rfl⟩
  · exact ⟨[], by simp⟩

theorem aaCheck_errors_ext (st : VState) (p : String) (fm : Frontmatter) :
    ∃ tl, (aaCheck st p fm).1.errors = st.errors ++ tl := by
  rcases aaCheck_cases st p fm with ⟨-, h⟩ | ⟨b, -, h⟩ <;> rw [h]
  · exact ⟨[⟨p, .missingAlwaysApply⟩], rfl⟩
  · exact ⟨[], by simp⟩

/-! ### Record projections of the state helpers -/

@[simp] theorem addErr_errors (st : VState) (p : String) (k : MsgKind) :
    (addErr st p k).errors = st.errors ++ [⟨p, k⟩] := rfl

@[simp] theorem addErr_warnings (st : VState) (p : String) (k : MsgKind) :
    (addErr st p k).warnings = st.warnings := rfl

@[simp] theorem addErr_stats (st : VState) (p : String) (k : MsgKind) :
    (addErr st p k).stats = st.stats := rfl

@[simp] theorem addWarn_errors (st : VState) (p : String) (k : MsgKind) :
    (addWarn st p k).errors = st.errors := rfl

@[simp] theorem addWarn_stats (st : VState) (p : String) (k : MsgKind) :
    (addWarn st p k).stats = st.stats := rfl

@[simp] theorem incTotal_errors (st : VState) : (incTotal st).errors = st.errors := rfl

@[simp] theorem incTotal_warnings (st : VState) : (incTotal st).warnings = st.warnings := rfl

@[simp] theorem incTotal_stats (st : VState) :
    (incTotal st).stats = { st.stats with total_files := st.stats.total_files + 1 } := rfl

@[simp] theorem incValid_errors (st : VState) : (incValid st).errors = st.errors := rfl

@[simp] theorem incValid_warnings (st : VState) : (incValid st).warnings = st.warnings := rfl

@[simp] theorem incValid_stats (st : VState) :
    (incValid st).stats = { st.stats with valid_files := st.stats.valid_files + 1 } := rfl

@[simp] theorem incInvalid_errors (st : VState) : (incInvalid st).errors = st.errors := rfl

@[simp] theorem incInvalid_warnings (st : VState) : (incInvalid st).warnings = st.warnings := rfl

@[simp] theorem incInvalid_stats (st : VState) :
    (incInvalid st).stats = { st.stats with invalid_files := st.stats.invalid_files + 1 } := rfl

@[simp] theorem incNoDesc_errors (st : VState) : (incNoDesc st).errors = st.errors := rfl

@[simp] theorem incNoDesc_stats (st : VState) :
    (incNoDesc st).stats =
      { st.stats with files_without_description := st.stats.files_without_description + 1 } := rfl

@[simp] theorem incNoAA_errors (st : VState) : (incNoAA st).errors = st.errors := rfl

@[simp] theorem incNoAA_stats (st : VState) :
    (incNoAA st).stats =
      { st.stats with files_without_alwaysApply := st.stats.files_without_alwaysApply + 1 } := rfl

/-! ### Unfolding validate_file -/

theorem checkFrontmatter_eq (st : VState) (p : String) (fm : Frontmatter) (body : List Char) :
    checkFrontmatter st p fm body =
      (if (descCheck st p fm).2 || (aaCheck (descCheck st p fm).1 p fm).2
       then (incInvalid (bodyCheck (aaCheck (descCheck st p fm).1 p fm).1 p body), false, fm)
       else (incValid (bodyCheck (aaCheck (descCheck st p fm).1 p fm).1 p body), true, fm)) := by
  simp only [checkFrontmatter, globsCheck_eq, Bool.or_false]

theorem frontmatterMatch_hdr {content fmStr body : List Char}
    (h : frontmatterMatch content = some (fmStr, body)) : hdr.isPrefixOf content = true := by
  unfold frontmatterMatch at h
  cases hh : hdr.isPrefixOf content with
  | true => rfl
  | false => rw [hh] at h; simp at h

theorem dashes3_of_hdr {content : List Char} (h : hdr.isPrefixOf content = true) :
    dashes3.isPrefixOf content = true := by
  obtain ⟨t, ht⟩ := isPrefixOf_decomp h
  rw [ht, show hdr ++ t = dashes3 ++ ('\n' :: t) from rfl]
  exact isPrefixOf_append_self dashes3 ('\n' :: t)

theorem validate_file_parsed (st : VState) (p : String) {content fmStr body : List Char}
    (hsplit : frontmatterMatch content = some (fmStr, body)) :
    validate_file st p (some content) =
      checkFrontmatter (incTotal st) p
        ⟨parseDescription fmStr, parseAlwaysApply fmStr, parseGlobs fmStr⟩ body := by
  have hp : dashes3.isPrefixOf content = true := dashes3_of_hdr (frontmatterMatch_hdr hsplit)
  simp only [validate_file, hp, hsplit]
  simp

theorem validate_file_malformed (st : VState) (p : String) {content : List Char}
    (hp : dashes3.isPrefixOf content = true) (hsplit : frontmatterMatch content = none) :
    validate_file st p (some content) =
      (incInvalid (addErr (incTotal st) p .malformedHeader), false, emptyFM) := by
  simp only [validate_file, hp, hsplit]
  simp

/-! ### Preservation facts -/

theorem checkFrontmatter_yaml (st : VState) (p : String) (fm : Frontmatter) (body : List Char) :
    (checkFrontmatter st p fm body).1.stats.files_with_invalid_yaml
      = st.stats.files_with_invalid_yaml := by
  rw [checkFrontmatter_eq]
  rcases descCheck_stats st p fm with h1 | h1 <;>
    rcases aaCheck_stats (descCheck st p fm).1 p fm with h2 | h2 <;>
      split <;> simp [bodyCheck_stats, h2, h1]

theorem validate_file_yaml (st : VState) (p : String) (c? : Option (List Char)) :
    (validate_file st p c?).1.stats.files_with_invalid_yaml
      = st.stats.files_with_invalid_yaml := by
  cases c? with
  | none => simp [validate_file]
  | some content =>
    cases hp : dashes3.isPrefixOf content with
    | false => simp [validate_file, hp]
    | true =>
      cases hm : frontmatterMatch content with
      | none =>
        rw [validate_file_malformed st p hp hm]
        simp
      | some v =>
        obtain ⟨fmStr, body⟩ := v
        rw [validate_file_parsed st p hm, checkFrontmatter_yaml]
        simp

theorem runFiles_yaml (files : List (String × Option (List Char))) :
    ∀ st : VState, (runFiles st files).stats.files_with_invalid_yaml
      = st.stats.files_with_invalid_yaml := by
  induction files with
  | nil => intro st; rfl
  | cons f fs ih =>
    intro st
    obtain ⟨p, c⟩ := f
    rw [runFiles, ih, validate_file_yaml]

theorem validate_all_yaml (st : VState) (d : Bool) (files : List (String × Option (List Char))) :
    (validate_all st d files).1.stats.files_with_invalid_yaml
      = st.stats.files_with_invalid_yaml := by
  unfold validate_all
  cases d with
  | false => simp
  | true =>
    cases files with
    | nil => simp
    | cons f fs => simp [runFiles_yaml]

@[simp] theorem beq_globsNotList (k : MsgKind) :
    (k == MsgKind.globsNotList) = decide (k = MsgKind.globsNotList) := by
  cases k <;> rfl

theorem countGNL_checkFrontmatter (st : VState) (p : String) (fm : Frontmatter) (body : List Char) :
    (checkFrontmatter st p fm body).1.errors.countP (fun e => e.kind == MsgKind.globsNotList)
      = st.errors.countP (fun e => e.kind == MsgKind.globsNotList) := by
  rw [checkFrontmatter_eq]
  rcases descCheck_cases st p fm with ⟨-, h1⟩ | ⟨s, -, -, h1⟩ | ⟨s, -, -, h1⟩ <;>
    rcases aaCheck_cases (descCheck st p fm).1 p fm with ⟨-, h2⟩ | ⟨b, -, h2⟩ <;>
      simp only [h1] at h2 <;>
        simp [h1, h2, bodyCheck_errors, List.countP_append, List.countP_cons]

theorem countGNL_validate_file (st : VState) (p : String) (c? : Option (List Char)) :
    (validate_file st p c?).1.errors.countP (fun e => e.kind == MsgKind.globsNotList)
      = st.errors.countP (fun e => e.kind == MsgKind.globsNotList) := by
  cases c? with
  | none => simp [validate_file, List.countP_append, List.countP_cons]
  | some content =>
    cases hp : dashes3.isPrefixOf content with
    | false => simp [validate_file, hp, List.countP_append, List.countP_cons]
    | true =>
      cases hm : frontmatterMatch content with
      | none =>
        rw [validate_file_malformed st p hp hm]
        simp [List.countP_append, List.countP_cons]
      | some v =>
        obtain ⟨fmStr, body⟩ := v
        rw [validate_file_parsed st p hm, countGNL_checkFrontmatter]
        simp

theorem mem_ite_singleton {c : Prop} [Decidable c] {x y : RLine}
    (h : y ∈ (if c then [x] else [])) : y = x := by
  split at h
  · simpa using h
  · simp at h

/-! ### Claims -/

/-- C2: the process exit status is 0 if and only if zero errors were
recorded over the whole run (warnings alone do not change it); it is 1 if
any error was recorded, and it is 1 when the root directory does not exist
or contains no matching files, each of which itself records an error. -/
theorem c2_exit_code (d : Bool) (files : List (String × Option (List Char))) :
    (mainExitCode d files = 0 ↔ (mainRun d files).1.errors = []) ∧
    mainExitCode false files = 1 ∧ (mainRun false files).1.errors ≠ [] ∧
    mainExitCode d [] = 1 ∧ (mainRun d []).1.errors ≠ [] := by
  have h1 : ∀ (d2 : Bool) (f2 : List (String × Option (List Char))),
      (mainExitCode d2 f2 = 0 ↔ (mainRun d2 f2).1.errors = []) := by
    intro d2 f2
    cases d2 with
    | false => simp [mainExitCode, mainRun, validate_all, initState]
    | true =>
      cases f2 with
      | nil => simp [mainExitCode, mainRun, validate_all, initState]
      | cons f fs =>
        by_cases hE : (runFiles initState (f :: fs)).errors = [] <;>
          simp [mainExitCode, mainRun, validate_all, List.isEmpty_iff, hE]
  refine ⟨h1 d files, ?_, ?_, ?_, ?_⟩
  · simp [mainExitCode, mainRun, validate_all]
  · simp [mainRun, validate_all, initState]
  · cases d <;> simp [mainExitCode, mainRun, validate_all]
  · cases d <;> simp [mainRun, validate_all, initState]

/-- C8: for every readable file whose content does not start with the
header delimiter, validate_file returns invalid with empty frontmatter and
appends exactly one error (missing header) regardless of the rest of the
content; warnings are untouched and the only counters that change are
total_files and invalid_files, each incremented by exactly 1. -/
theorem c8_missing_header (st : VState) (p : String) (content : List Char)
    (h : dashes3.isPrefixOf content = false) :
    validate_file st p (some content) =
      ({ st with
          errors := st.errors ++ [⟨p, MsgKind.missingHeader⟩],
          stats := { st.stats with
                      total_files := st.stats.total_files + 1,
                      invalid_files := st.stats.invalid_files + 1 } },
       false, emptyFM) := by
  simp only [validate_file, h]
  rfl

/-- Witness for C8 at the concrete content "no header here". -/
theorem c8_missing_header_w :
    dashes3.isPrefixOf (toL "no header here") = false ∧
    validate_file initState "bad.mdc" (some (toL "no header here")) =
      ({ initState with
          errors := [⟨"bad.mdc", MsgKind.missingHeader⟩],
          stats := { initState.stats with total_files := 1, invalid_files := 1 } },
       false, emptyFM) :=
  ⟨by decide, by
    rw [c8_missing_header initState "bad.mdc" (toL "no header here") (by decide)]
    rfl⟩

/-- C9: the parsed globs value is always absent or a list (every assignment
in the source stores a list or None), so the wrong-type check is an
unreachable error branch: it never records an error or sets has_errors, and
no run of validate_file ever changes the number of wrong-type errors. -/
theorem c9_globs_type_check_unreachable (st : VState) (p : String) (fm : Frontmatter)
    (c? : Option (List Char)) :
    globsCheck st p fm = (st, false) ∧
    (validate_file st p c?).1.errors.countP (fun e => e.kind == MsgKind.globsNotList)
      = st.errors.countP (fun e => e.kind == MsgKind.globsNotList) :=
  ⟨globsCheck_eq st p fm, countGNL_validate_file st p c?⟩

/-- C10: the files_with_invalid_yaml counter starts at 0 and no operation
increments it: validate_file preserves it, every full run ends with it
equal to 0, and the report line for it is never printed. -/
theorem c10_invalid_yaml_counter (d : Bool) (files : List (String × Option (List Char)))
    (st : VState) (p : String) (c? : Option (List Char)) :
    (validate_file st p c?).1.stats.files_with_invalid_yaml
        = st.stats.files_with_invalid_yaml ∧
    (validate_all initState d files).1.stats.files_with_invalid_yaml = 0 ∧
    ∀ n, RLine.statsInvalidYaml n ∉ printReport (validate_all initState d files).1 := by
  have h0 : (validate_all initState d files).1.stats.files_with_invalid_yaml = 0 := by
    rw [validate_all_yaml]
    rfl
  refine ⟨validate_file_yaml st p c?, h0, ?_⟩
  intro n hn
  unfold printReport at hn
  rw [h0] at hn
  simp only [gt_iff_lt, Nat.lt_irrefl, if_false] at hn
  repeat' split at hn
  all_goals simp_all [List.mem_append, List.mem_cons, List.mem_map]

/-- C3 (corrected/amended): for content beginning with the three-character
delimiter, header extraction succeeds exactly when the content has the
form "---\n" ++ block ++ "\n---\n" ++ rest — the terminating delimiter
line must be preceded by a newline distinct from the opening line's and
followed by a newline; otherwise the malformed-header error is recorded
and the file is invalid. -/
theorem c3_malformed_header_amended (content : List Char) (st : VState) (p : String)
    (h : dashes3.isPrefixOf content = true) :
    ((frontmatterMatch content).isSome ↔ HeaderShape content) ∧
    (frontmatterMatch content = none →
      (validate_file st p (some content)).1.errors
          = st.errors ++ [⟨p, MsgKind.malformedHeader⟩] ∧
      (validate_file st p (some content)).2.1 = false ∧
      (validate_file st p (some content)).1.stats.invalid_files
          = st.stats.invalid_files + 1) := by
  constructor
  · unfold frontmatterMatch HeaderShape
    cases hh : hdr.isPrefixOf content with
    | true =>
      obtain ⟨t, ht⟩ := isPrefixOf_decomp hh
      subst ht
      simp only [if_true]
      rw [List.drop_left, splitOnMarker_isSome_iff]
      constructor
      · rintro ⟨a, b, hab⟩
        exact ⟨a, b, by rw [hab]⟩
      · rintro ⟨fm2, rest, heq⟩
        exact ⟨fm2, rest, List.append_cancel_left heq⟩
    | false =>
      simp only [Bool.false_eq_true, if_false, Option.isSome_none, false_iff]
      rintro ⟨fm2, rest, heq⟩
      rw [heq, isPrefixOf_append_self] at hh
      simp at hh
  · intro hm
    rw [validate_file_malformed st p h hm]
    exact ⟨by simp, rfl, by simp⟩

/-- Witness for C3 at the concrete content "---\nx\n---\nB", where the
equivalence is applied with both sides decidably true. -/
theorem c3_malformed_header_amended_w :
    dashes3.isPrefixOf (toL "---\nx\n---\nB") = true ∧
    ((frontmatterMatch (toL "---\nx\n---\nB")).isSome ↔ HeaderShape (toL "---\nx\n---\nB")) :=
  ⟨by decide,
   (c3_malformed_header_amended (toL "---\nx\n---\nB") initState "a.mdc" (by decide)).1⟩

/-- C3 counterexample: the content "---\nx\n---" begins with the delimiter
line and its last line is exactly the matching delimiter, terminating the
header block at end of file — yet extraction fails and the code records
the malformed-header error, because the closing delimiter line is not
followed by a newline. -/
theorem c3_header_eof_cex :
    linesOf (toL "---\nx\n---") = [toL "---", toL "x", toL "---"] ∧
    frontmatterMatch (toL "---\nx\n---") = none ∧
    (validate_file initState "r.mdc" (some (toL "---\nx\n---"))).1.errors
      = [⟨"r.mdc", MsgKind.malformedHeader⟩] ∧
    (validate_file initState "r.mdc" (some (toL "---\nx\n---"))).2.1 = false := by
  decide

/-- C4: for every file whose header parses, an absent description records
the missing-description error, increments the missing-description counter
by exactly 1 and marks the file invalid; a present-but-blank (after
trimming) description records the empty-description error and marks the
file invalid but does not change the missing-description counter. -/
theorem c4_description_checks (st : VState) (p : String) (content fmStr body : List Char)
    (hsplit : frontmatterMatch content = some (fmStr, body)) :
    (parseDescription fmStr = none →
      (validate_file st p (some content)).1.stats.files_without_description
          = st.stats.files_without_description + 1 ∧
      (⟨p, MsgKind.missingDescription⟩ : Err) ∈ (validate_file st p (some content)).1.errors ∧
      (validate_file st p (some content)).2.1 = false ∧
      (validate_file st p (some content)).1.stats.invalid_files
          = st.stats.invalid_files + 1) ∧
    (∀ s, parseDescription fmStr = some s → trim s = [] →
      (validate_file st p (some content)).1.stats.files_without_description
          = st.stats.files_without_description ∧
      (⟨p, MsgKind.emptyDescription⟩ : Err) ∈ (validate_file st p (some content)).1.errors ∧
      (validate_file st p (some content)).2.1 = false ∧
      (validate_file st p (some content)).1.stats.invalid_files
          = st.stats.invalid_files + 1) := by
  rw [validate_file_parsed st p hsplit, checkFrontmatter_eq]
  constructor
  · intro hd
    have hdesc : descCheck (incTotal st) p
        ⟨parseDescription fmStr, parseAlwaysApply fmStr, parseGlobs fmStr⟩
        = (incNoDesc (addErr (incTotal st) p .missingDescription), true) := by
      rcases descCheck_cases (incTotal st) p
          ⟨parseDescription fmStr, parseAlwaysApply fmStr, parseGlobs fmStr⟩ with
        ⟨-, heq⟩ | ⟨s, hs, -, -⟩ | ⟨s, hs, -, -⟩
      · exact heq
      · rw [hd] at hs; cases hs
      · rw [hd] at hs; cases hs
    rw [hdesc]
    rcases aaCheck_cases (incNoDesc (addErr (incTotal st) p .missingDescription)) p
        ⟨parseDescription fmStr, parseAlwaysApply fmStr, parseGlobs fmStr⟩ with
      ⟨-, h2⟩ | ⟨b, -, h2⟩ <;>
      simp [h2, bodyCheck_stats, bodyCheck_errors, List.mem_append]
  · intro s hps htrim
    have hdesc : descCheck (incTotal st) p
        ⟨parseDescription fmStr, parseAlwaysApply fmStr, parseGlobs fmStr⟩
        = (addErr (incTotal st) p .emptyDescription, true) := by
      rcases descCheck_cases (incTotal st) p
          ⟨parseDescription fmStr, parseAlwaysApply fmStr, parseGlobs fmStr⟩ with
        ⟨hn, -⟩ | ⟨s2, hs2, -, heq⟩ | ⟨s2, hs2, hblank, -⟩
      · rw [hps] at hn; cases hn
      · exact heq
      · have hss : s = s2 := by
          rw [hps] at hs2
          exact Option.some.inj hs2
        rw [← hss, htrim] at hblank
        simp [List.isEmpty] at hblank
    rw [hdesc]
    rcases aaCheck_cases (addErr (incTotal st) p .emptyDescription) p
        ⟨parseDescription fmStr, parseAlwaysApply fmStr, parseGlobs fmStr⟩ with
      ⟨-, h2⟩ | ⟨b, -, h2⟩ <;>
      simp [h2, bodyCheck_stats, bodyCheck_errors, List.mem_append]

/-- Witness for C4: a header with only alwaysApply (description absent) and
a header with an explicitly empty description. -/
theorem c4_description_checks_w :
    (frontmatterMatch (toL "---\nalwaysApply: true\n---\nB")
        = some (toL "alwaysApply: true", toL "B") ∧
      parseDescription (toL "alwaysApply: true") = none ∧
      (validate_file initState "m.mdc"
          (some (toL "---\nalwaysApply: true\n---\nB"))).1.stats.files_without_description
        = initState.stats.files_without_description + 1) ∧
    (frontmatterMatch (toL "---\ndescription: \"\"\nalwaysApply: true\n---\nB")
        = some (toL "description: \"\"\nalwaysApply: true", toL "B") ∧
      parseDescription (toL "description: \"\"\nalwaysApply: true") = some [] ∧
      (validate_file initState "e.mdc"
          (some (toL "---\ndescription: \"\"\nalwaysApply: true\n---\nB"))).1.stats.files_without_description
        = initState.stats.files_without_description ∧
      (⟨"e.mdc", MsgKind.emptyDescription⟩ : Err)
        ∈ (validate_file initState "e.mdc"
            (some (toL "---\ndescription: \"\"\nalwaysApply: true\n---\nB"))).1.errors) :=
  ⟨⟨by decide, by decide,
    ((c4_description_checks initState "m.mdc" (toL "---\nalwaysApply: true\n---\nB")
        (toL "alwaysApply: true") (toL "B") (by decide)).1 (by decide)).1⟩,
   ⟨by decide, by decide,
    (((c4_description_checks initState "e.mdc"
        (toL "---\ndescription: \"\"\nalwaysApply: true\n---\nB")
        (toL "description: \"\"\nalwaysApply: true") (toL "B")
        (by decide)).2 [] (by decide) (by decide)).1),
    (((c4_description_checks initState "e.mdc"
        (toL "---\ndescription: \"\"\nalwaysApply: true\n---\nB")
        (toL "description: \"\"\nalwaysApply: true") (toL "B")
        (by decide)).2 [] (by decide) (by decide)).2.1)⟩⟩

/-- Soundness of one `alwaysApply` match attempt: a success decomposes the
position into key (case-insensitive), whitespace, boolean literal
(case-insensitive) and a line end. -/
theorem matchAA_sound {u : List Char} {b : Bool} (h : matchAA u = some b) :
    ∃ k w lit rest, u = k ++ (w ++ (lit ++ rest)) ∧
      k.map Char.toLower = toL "alwaysapply:" ∧
      (∀ c ∈ w, pySpace c = true) ∧
      lit.map Char.toLower = toL (if b then "true" else "false") ∧
      (rest = [] ∨ rest.head? = some '\n') := by
  unfold matchAA at h
  cases hci : ciStarts aaKey u with
  | false => rw [hci] at h; simp at h
  | true =>
    rw [hci] at h
    simp only [if_true] at h
    obtain ⟨k, r, hu, hklen, hkmap⟩ := ciStarts_sound hci
    have hdrop : u.drop aaKey.length = r := by
      rw [hu, ← hklen]
      exact List.drop_left k r
    rw [hdrop] at h
    have hr : r = r.takeWhile pySpace ++ r.dropWhile pySpace :=
      (List.takeWhile_append_dropWhile pySpace r).symm
    have hwsp : ∀ c ∈ r.takeWhile pySpace, pySpace c = true :=
      fun c hc => List.mem_takeWhile_imp hc
    unfold matchBoolLit at h
    cases hT : (ciStarts (toL "true") (r.dropWhile pySpace)
        && lineEnds ((r.dropWhile pySpace).drop 4)) with
    | true =>
      rw [hT] at h
      simp only [if_true, Option.some.injEq] at h
      obtain ⟨hciT, hleT⟩ := Bool.and_eq_true_iff.mp hT
      obtain ⟨lit, rest, hveq, hlitlen, hlitmap⟩ := ciStarts_sound hciT
      have hrest : (r.dropWhile pySpace).drop 4 = rest := by
        rw [hveq]
        exact List.drop_left' (by rw [hlitlen]; rfl)
      refine ⟨k, r.takeWhile pySpace, lit, rest, ?_, ?_, hwsp, ?_, ?_⟩
      · rw [hu, ← hveq, ← hr]
      · rw [hkmap]; decide
      · rw [← h]
        simp only [if_true]
        rw [hlitmap]; decide
      · rw [hrest] at hleT
        cases rest with
        | nil => exact Or.inl rfl
        | cons c cs =>
          right
          simp only [lineEnds, beq_iff_eq] at hleT
          rw [hleT]
          rfl
    | false =>
      rw [hT] at h
      simp only [Bool.false_eq_true, if_false] at h
      cases hF : (ciStarts (toL "false") (r.dropWhile pySpace)
          && lineEnds ((r.dropWhile pySpace).drop 5)) with
      | false => rw [hF] at h; simp at h
      | true =>
        rw [hF] at h
        simp only [if_true, Option.some.injEq] at h
        obtain ⟨hciF, hleF⟩ := Bool.and_eq_true_iff.mp hF
        obtain ⟨lit, rest, hveq, hlitlen, hlitmap⟩ := ciStarts_sound hciF
        have hrest : (r.dropWhile pySpace).drop 5 = rest := by
          rw [hveq]
          exact List.drop_left' (by rw [hlitlen]; rfl)
        refine ⟨k, r.takeWhile pySpace, lit, rest, ?_, ?_, hwsp, ?_, ?_⟩
        · rw [hu, ← hveq, ← hr]
        · rw [hkmap]; decide
        · rw [← h]
          simp only [Bool.false_eq_true, if_false]
          rw [hlitmap]; decide
        · rw [hrest] at hleF
          cases rest with
          | nil => exact Or.inl rfl
          | cons c cs =>
            right
            simp only [lineEnds, beq_iff_eq] at hleF
            rw [hleF]
            rfl

/-- Soundness of the `alwaysApply` extraction: a parsed boolean always
comes from a line-start occurrence of the shape described by AAShape. -/
theorem parseAlwaysApply_sound {fm : List Char} {b : Bool}
    (h : parseAlwaysApply fm = some b) : AAShape fm b := by
  unfold parseAlwaysApply at h
  obtain ⟨u, hu, hmu⟩ := firstMatch_sound h
  obtain ⟨k, w, lit, rest, h1, h2, h3, h4, h5⟩ := matchAA_sound hmu
  exact ⟨u, k, w, lit, rest, lineSuffix_of_mem hu, h1, h2, h3, h4, h5⟩

/-- C5: the alwaysApply field is parsed only from a key at a line start
(matched case-insensitively) whose value, after optional whitespace, is
the literal true or false (case-insensitively) ending a line; any absent
or non-matching value leaves the field absent, and a file with the field
absent records an error, increments the missing-alwaysApply counter by
exactly 1 and is invalid. -/
theorem c5_alwaysApply_checks (st : VState) (p : String) (content fmStr body : List Char)
    (hsplit : frontmatterMatch content = some (fmStr, body)) :
    (∀ b, parseAlwaysApply fmStr = some b → AAShape fmStr b) ∧
    (parseAlwaysApply fmStr = none →
      (validate_file st p (some content)).1.stats.files_without_alwaysApply
          = st.stats.files_without_alwaysApply + 1 ∧
      (⟨p, MsgKind.missingAlwaysApply⟩ : Err) ∈ (validate_file st p (some content)).1.errors ∧
      (validate_file st p (some content)).2.1 = false ∧
      (validate_file st p (some content)).1.stats.invalid_files
          = st.stats.invalid_files + 1) := by
  constructor
  · exact fun b hb => parseAlwaysApply_sound hb
  · intro hA
    rw [validate_file_parsed st p hsplit, checkFrontmatter_eq]
    have haa : ∀ st2 : VState,
        aaCheck st2 p ⟨parseDescription fmStr, parseAlwaysApply fmStr, parseGlobs fmStr⟩
          = (incNoAA (addErr st2 p .missingAlwaysApply), true) := by
      intro st2
      rcases aaCheck_cases st2 p
          ⟨parseDescription fmStr, parseAlwaysApply fmStr, parseGlobs fmStr⟩ with
        ⟨-, heq⟩ | ⟨b, hb, -⟩
      · exact heq
      · rw [hA] at hb; cases hb
    rcases descCheck_cases (incTotal st) p
        ⟨parseDescription fmStr, parseAlwaysApply fmStr, parseGlobs fmStr⟩ with
      ⟨-, h1⟩ | ⟨s, -, -, h1⟩ | ⟨s, -, -, h1⟩ <;>
      rw [h1] <;>
      simp [haa, bodyCheck_stats, bodyCheck_errors, List.mem_append]

/-- Witness for C5: parsing the literal line yields true with the declared
shape, and a header without the key records the error and counter. -/
theorem c5_alwaysApply_checks_w :
    AAShape (toL "alwaysApply: true") true ∧
    ((validate_file initState "n.mdc"
        (some (toL "---\ndescription: \"d\"\n---\nB"))).1.stats.files_without_alwaysApply
      = initState.stats.files_without_alwaysApply + 1 ∧
     (⟨"n.mdc", MsgKind.missingAlwaysApply⟩ : Err)
        ∈ (validate_file initState "n.mdc"
            (some (toL "---\ndescription: \"d\"\n---\nB"))).1.errors) :=
  ⟨(c5_alwaysApply_checks initState "x.mdc" (toL "---\nalwaysApply: true\n---\nB")
      (toL "alwaysApply: true") (toL "B") (by decide)).1 true (by decide),
   ⟨((c5_alwaysApply_checks initState "n.mdc" (toL "---\ndescription: \"d\"\n---\nB")
      (toL "description: \"d\"") (toL "B") (by decide)).2 (by decide)).1,
    ((c5_alwaysApply_checks initState "n.mdc" (toL "---\ndescription: \"d\"\n---\nB")
      (toL "description: \"d\"") (toL "B") (by decide)).2 (by decide)).2.1⟩⟩

/-- A parsed globs list always comes from a line starting with the globs
key: both regex attempts are gated on the key at a line start. -/
theorem parseGlobs_key_sound {fm : List Char} {l : List (List Char)}
    (h : parseGlobs fm = some l) :
    ∃ u, LineSuffix fm u ∧ gKey.isPrefixOf u = true := by
  unfold parseGlobs at h
  cases h1 : firstMatch matchGlobsBracket (lineSuffixesOf fm) with
  | some g =>
    obtain ⟨u, hu, hmu⟩ := firstMatch_sound h1
    refine ⟨u, lineSuffix_of_mem hu, ?_⟩
    unfold matchGlobsBracket at hmu
    cases hk : gKey.isPrefixOf u with
    | true => rfl
    | false => rw [hk] at hmu; simp at hmu
  | none =>
    rw [h1] at h
    cases h2 : firstMatch matchGlobsEmpty (lineSuffixesOf fm) with
    | some g2 =>
      obtain ⟨u, hu, hmu⟩ := firstMatch_sound h2
      refine ⟨u, lineSuffix_of_mem hu, ?_⟩
      unfold matchGlobsEmpty at hmu
      cases hk : gKey.isPrefixOf u with
      | true => rfl
      | false => rw [hk] at hmu; simp at hmu
    | none => rw [h2] at h; simp at h

/-- C6 (corrected/amended): a globs value written as a bracketed list may
span multiple lines and is parsed to its quoted items (the lazy group of
the bracket pattern runs across newlines under DOTALL); only non-bracketed
forms, such as a dash-style block list, leave the field absent — and any
parsed list always comes from a line starting with the globs key. -/
theorem c6_globs_multiline_amended :
    parseGlobs (toL "globs: [\n  \"*.ts\",\n  \"*.js\"\n]")
      = some [toL "*.ts", toL "*.js"] ∧
    parseGlobs (toL "globs:\n  - \"*.ts\"") = none ∧
    (∀ fm l, parseGlobs fm = some l → ∃ u, LineSuffix fm u ∧ gKey.isPrefixOf u = true) :=
  ⟨by decide, by decide, fun _ _ h => parseGlobs_key_sound h⟩

/-- Witness for C6 applying the soundness conjunct at a concrete header. -/
theorem c6_globs_multiline_amended_w :
    ∃ u, LineSuffix (toL "globs: []") u ∧ gKey.isPrefixOf u = true :=
  c6_globs_multiline_amended.2.2 (toL "globs: []") [] (by decide)

/-- C6 counterexample: a header block whose globs list value spans three
lines is parsed to a present list, refuting the claim that the parser
never produces a list for a multi-line globs value. -/
theorem c6_globs_multiline_cex :
    ('\n' ∈ toL "\n  \"*.ts\"\n") ∧
    linesOf (toL "globs: [\n  \"*.ts\"\n]")
      = [toL "globs: [", toL "  \"*.ts\"", toL "]"] ∧
    parseGlobs (toL "globs: [\n  \"*.ts\"\n]") = some [toL "*.ts"] := by
  decide

/-- C7: a header containing the line "globs: []" (as the only line whose
start matches the globs key) parses globs to a present, zero-length list,
while a header with no globs key at any line start leaves the field
absent — two distinguishable outcomes. -/
theorem c7_empty_globs_list (pre post : List Char)
    (hpre : pre = [] ∨ pre.getLast? = some '\n')
    (honly : ∀ u ∈ lineSuffixesOf (pre ++ (toL "globs: []" ++ post)),
      gKey.isPrefixOf u = true → u = toL "globs: []" ++ post) :
    parseGlobs (pre ++ (toL "globs: []" ++ post)) = some [] ∧
    (∀ fm2, (∀ u ∈ lineSuffixesOf fm2, gKey.isPrefixOf u = false) → parseGlobs fm2 = none) ∧
    (some ([] : List (List Char)) ≠ none) := by
  refine ⟨?_, ?_, by simp⟩
  · have hmem : (toL "globs: []" ++ post)
        ∈ lineSuffixesOf (pre ++ (toL "globs: []" ++ post)) := by
      rcases hpre with h | h
      · rw [h, List.nil_append]
        exact self_mem_lineSuffixesOf _
      · obtain ⟨pre2, hp2⟩ := List.getLast?_eq_some_iff.mp h
        rw [hp2, List.append_assoc]
        exact mem_lineSuffixesOf_of_split pre2 _
    have hsp : pySpace ' ' = true := rfl
    have hlb : pySpace '[' = false := rfl
    have hours : matchGlobsBracket (toL "globs: []" ++ post) = some [] := by
      rw [show toL "globs: []" ++ post = gKey ++ (' ' :: '[' :: (']' :: post)) from rfl]
      unfold matchGlobsBracket
      rw [isPrefixOf_append_self]
      simp only [if_true]
      rw [List.drop_left]
      rw [show (' ' :: '[' :: (']' :: post)).dropWhile pySpace = '[' :: (']' :: post) by
        simp [List.dropWhile_cons, hsp, hlb]]
      simp [List.any_cons, List.takeWhile_cons]
    have hothers : ∀ v ∈ lineSuffixesOf (pre ++ (toL "globs: []" ++ post)),
        v ≠ toL "globs: []" ++ post → matchGlobsBracket v = none := by
      intro v hv hne
      cases hk : gKey.isPrefixOf v with
      | true => exact absurd (honly v hv hk) hne
      | false =>
        unfold matchGlobsBracket
        rw [hk]
        simp
    have hscan : firstMatch matchGlobsBracket
        (lineSuffixesOf (pre ++ (toL "globs: []" ++ post))) = some [] :=
      firstMatch_of_unique hmem hours hothers
    unfold parseGlobs
    rw [hscan]
    rfl
  · intro fm2 hk
    have h1 : firstMatch matchGlobsBracket (lineSuffixesOf fm2) = none := by
      apply firstMatch_eq_none
      intro u hu
      unfold matchGlobsBracket
      rw [hk u hu]
      simp
    have h2 : firstMatch matchGlobsEmpty (lineSuffixesOf fm2) = none := by
      apply firstMatch_eq_none
      intro u hu
      unfold matchGlobsEmpty
      rw [hk u hu]
      simp
    unfold parseGlobs
    rw [h1, h2]

/-- Witness for C7 with the bare header "globs: []" and the bare header
"description: \"d\"". -/
theorem c7_empty_globs_list_w :
    parseGlobs ([] ++ (toL "globs: []" ++ [])) = some [] ∧
    parseGlobs (toL "description: \"d\"") = none :=
  ⟨(c7_empty_globs_list [] [] (Or.inl rfl) (by decide)).1,
   (c7_empty_globs_list [] [] (Or.inl rfl) (by decide)).2.1
     (toL "description: \"d\"") (by decide)⟩

/-! ### Suffix and membership helpers for the round-trip proof -/

theorem suffix_append_cases {u a b : List Char} (h : u <:+ a ++ b) :
    u <:+ b ∨ ∃ a2, a2 <:+ a ∧ a2 ≠ [] ∧ u = a2 ++ b := by
  obtain ⟨pfx, hp⟩ := h
  have hu : u = (a ++ b).drop pfx.length := by
    rw [← hp, List.drop_left]
  rcases le_or_lt a.length pfx.length with hle | hlt
  · left
    rw [hu, List.drop_append_eq_append_drop, List.drop_eq_nil_of_le hle, List.nil_append]
    exact List.drop_suffix _ _
  · right
    refine ⟨a.drop pfx.length, List.drop_suffix _ _, ?_, ?_⟩
    · intro hx
      have := congrArg List.length hx
      simp [List.length_drop] at this
      omega
    · rw [hu, List.drop_append_of_le_length (Nat.le_of_lt hlt)]

theorem head?_append_left {l l' : List Char} {c : Char} (h : l.head? = some c) :
    (l ++ l').head? = some c := by
  cases l with
  | nil => simp at h
  | cons d t => simpa using h

theorem isPrefixOf_head_false {k s : List Char} {c d : Char} (hk : k.head? = some c)
    (hs : s.head? = some d) (hcd : (c == d) = false) : k.isPrefixOf s = false := by
  cases k with
  | nil => simp at hk
  | cons c2 ks =>
    cases s with
    | nil => simp at hs
    | cons d2 cs =>
      have hc2 : c2 = c := by simpa using hk
      have hd2 : d2 = d := by simpa using hs
      subst hc2
      subst hd2
      rw [List.isPrefixOf_cons₂, hcd]
      rfl

theorem ciStarts_head_false {k s : List Char} {c d : Char} (hk : k.head? = some c)
    (hs : s.head? = some d) (hcd : lowEq c d = false) : ciStarts k s = false := by
  cases k with
  | nil => simp at hk
  | cons c2 ks =>
    cases s with
    | nil => simp at hs
    | cons d2 cs =>
      have hc2 : c2 = c := by simpa using hk
      have hd2 : d2 = d := by simpa using hs
      have hcd2 : lowEq c2 d2 = false := by rw [hc2, hd2]; exact hcd
      show (lowEq c2 d2 && ciStarts ks cs) = false
      rw [hcd2]
      rfl

theorem mem_joinSep {sep : List Char} {L : List (List Char)} {c : Char}
    (h : c ∈ joinSep sep L) : c ∈ sep ∨ ∃ x ∈ L, c ∈ x := by
  induction L with
  | nil => simp [joinSep] at h
  | cons x xs ih =>
    cases xs with
    | nil =>
      simp only [joinSep] at h
      exact Or.inr ⟨x, by simp, h⟩
    | cons y ys =>
      simp only [joinSep] at h
      rcases List.mem_append.mp h with h | h
      · exact Or.inr ⟨x, by simp, h⟩
      · rcases List.mem_append.mp h with h | h
        · exact Or.inl h
        · rcases ih h with h | ⟨z, hz, hcz⟩
          · exact Or.inl h
          · exact Or.inr ⟨z, List.mem_cons_of_mem _ hz, hcz⟩

theorem not_mem_dLineOf {desc : List Char} (hdn : '\n' ∉ desc) : '\n' ∉ dLineOf desc := by
  unfold dLineOf
  intro h
  rcases List.mem_append.mp h with h | h
  · exact absurd h (by decide)
  · rcases List.mem_cons.mp h with h | h
    · exact absurd h (by decide)
    · rcases List.mem_cons.mp h with h | h
      · exact absurd h (by decide)
      · rcases List.mem_append.mp h with h | h
        · exact hdn h
        · exact absurd h (by decide)

theorem not_mem_aLineOf (b : Bool) : '\n' ∉ aLineOf b := by
  cases b <;> decide

theorem not_mem_gLineOf {gs : List (List Char)}
    (hg : ∀ g ∈ gs, ∀ c ∈ g, c ≠ '\n') : '\n' ∉ gLineOf gs := by
  unfold gLineOf
  intro h
  rcases List.mem_append.mp h with h | h
  · exact absurd h (by decide)
  · rcases List.mem_cons.mp h with h | h
    · exact absurd h (by decide)
    · rcases List.mem_cons.mp h with h | h
      · exact absurd h (by decide)
      · rcases List.mem_append.mp h with h | h
        · rcases mem_joinSep h with h | ⟨x, hx, hmx⟩
          · exact absurd h (by decide)
          · obtain ⟨g0, hg0, hq⟩ := List.mem_map.mp hx
            rw [← hq] at hmx
            unfold quoteItem at hmx
            rcases List.mem_cons.mp hmx with h2 | h2
            · exact absurd h2 (by decide)
            · rcases List.mem_append.mp h2 with h2 | h2
              · exact hg g0 hg0 '\n' h2 rfl
              · exact absurd h2 (by decide)
        · exact absurd h (by decide)

theorem lineSuffixesOf_append_nl {a r : List Char} (ha : '\n' ∉ a) :
    lineSuffixesOf (a ++ '\n' :: r) = (a ++ '\n' :: r) :: lineSuffixesOf r := by
  induction a with
  | nil => simp [lineSuffixesOf]
  | cons c a2 ih =>
    have hc : c ≠ '\n' := fun h => ha (h ▸ List.mem_cons_self _ _)
    have ha2 : '\n' ∉ a2 := fun h => ha (List.mem_cons_of_mem _ h)
    rw [List.cons_append]
    simp only [lineSuffixesOf, if_neg hc, ih ha2]

theorem lineSuffixesOf_no_nl {a : List Char} (ha : '\n' ∉ a) :
    lineSuffixesOf a = [a] := by
  induction a with
  | nil => rfl
  | cons c a2 ih =>
    have hc : c ≠ '\n' := fun h => ha (h ▸ List.mem_cons_self _ _)
    have ha2 : '\n' ∉ a2 := fun h => ha (List.mem_cons_of_mem _ h)
    simp only [lineSuffixesOf, if_neg hc, ih ha2]

/-- No occurrence of the closing delimiter pattern starts inside the
header block built from conforming fields: the only newlines in the block
are followed by the alwaysApply line and the globs line, whose first
characters are not dashes, and the appended marker is never reached early.
This makes the lazy split return exactly the built block. -/
theorem mkFM_no_marker (desc : List Char) (b : Bool) (gs : List (List Char)) (body : List Char)
    (hdn : '\n' ∉ desc) (hg : ∀ g ∈ gs, ∀ c ∈ g, c ≠ '\n') :
    ∀ u, u <:+ mkFM desc b gs → u ≠ [] →
      marker.isPrefixOf (u ++ (marker ++ body)) = false := by
  intro u hsuf hne
  cases hm : marker.isPrefixOf (u ++ (marker ++ body)) with
  | false => rfl
  | true =>
    exfalso
    cases u with
    | nil => exact hne rfl
    | cons c u2 =>
      rw [show (c :: u2) ++ (marker ++ body) = c :: (u2 ++ (marker ++ body)) from rfl,
        show marker = '\n' :: toL "---\n" from rfl,
        List.isPrefixOf_cons₂] at hm
      obtain ⟨h1, hrest⟩ := Bool.and_eq_true_iff.mp hm
      have hceq : c = '\n' := (beq_iff_eq.mp h1).symm
      subst hceq
      unfold mkFM at hsuf
      rcases suffix_append_cases hsuf with h | ⟨a2, ha2, ha2ne, heq⟩
      · rcases List.suffix_cons_iff.mp h with h | h
        · have hu2 : u2 = aLineOf b ++ ('\n' :: gLineOf gs) := by
            simpa using h
          rw [hu2, List.append_assoc] at hrest
          rw [isPrefixOf_head_false (show (toL "---\n").head? = some '-' from rfl)
            (head?_append_left (show (aLineOf b).head? = some 'a' from by cases b <;> rfl))
            (by decide)] at hrest
          exact absurd hrest (by simp)
        · rcases suffix_append_cases h with h2 | ⟨a3, ha3, ha3ne, heq3⟩
          · rcases List.suffix_cons_iff.mp h2 with h3 | h3
            · have hu2 : u2 = gLineOf gs := by simpa using h3
              rw [hu2] at hrest
              rw [isPrefixOf_head_false (show (toL "---\n").head? = some '-' from rfl)
                (head?_append_left (show (gLineOf gs).head? = some 'g' from rfl))
                (by decide)] at hrest
              exact absurd hrest (by simp)
            · have : '\n' ∈ gLineOf gs := h3.subset (List.mem_cons_self _ _)
              exact not_mem_gLineOf hg this
          · have hhd : '\n' ∈ aLineOf b := by
              cases a3 with
              | nil => exact absurd rfl ha3ne
              | cons d a4 =>
                have hd : '\n' = d := by
                  rw [List.cons_append] at heq3
                  simpa using (List.cons.injEq _ _ _ _ ▸ heq3 : _ ∧ _).1
                exact hd ▸ ha3.subset (List.mem_cons_self _ _)
            exact not_mem_aLineOf b hhd
      · have hhd : '\n' ∈ dLineOf desc := by
          cases a2 with
          | nil => exact absurd rfl ha2ne
          | cons d a4 =>
            have hd : '\n' = d := by
              rw [List.cons_append] at heq
              simpa using (List.cons.injEq _ _ _ _ ▸ heq : _ ∧ _).1
            exact hd ▸ ha2.subset (List.mem_cons_self _ _)
        exact not_mem_dLineOf hdn hhd

/-! ### Evaluating the matchers on conforming content -/

theorem findallAux_group (g : List Char) :
    ∀ (acc rest : List Char), (∀ c ∈ g, isQuoteCh c = false) →
      (acc ≠ [] ∨ g ≠ []) →
      findallAux (some acc) (g ++ ('"' :: rest)) = (acc.reverse ++ g) :: findallAux none rest := by
  induction g with
  | nil =>
    intro acc rest hq hne
    have hacc : acc ≠ [] := by
      rcases hne with h | h
      · exact h
      · exact absurd rfl h
    simp only [List.nil_append, findallAux]
    rw [if_pos (by decide), if_neg (by simpa [List.isEmpty_iff] using hacc)]
    simp
  | cons c g2 ih =>
    intro acc rest hq hne
    have hc : isQuoteCh c = false := hq c (List.mem_cons_self _ _)
    rw [List.cons_append]
    show findallAux (some acc) (c :: (g2 ++ ('"' :: rest))) = _
    simp only [findallAux, hc, Bool.false_eq_true, if_false]
    rw [ih (c :: acc) rest (fun d hd => hq d (List.mem_cons_of_mem _ hd)) (Or.inl (by simp))]
    simp

theorem findallQuoted_joinSep :
    ∀ gs : List (List Char), (∀ g ∈ gs, g ≠ [] ∧ ∀ c ∈ g, isQuoteCh c = false) →
      findallQuoted (joinSep (toL ", ") (gs.map quoteItem)) = gs := by
  intro gs
  induction gs with
  | nil => intro h; rfl
  | cons g gs' ih =>
    intro h
    obtain ⟨hgne, hgq⟩ := h g (List.mem_cons_self _ _)
    have hrest := fun g2 hg2 => h g2 (List.mem_cons_of_mem _ hg2)
    have h1 : isQuoteCh '"' = true := rfl
    cases gs' with
    | nil =>
      show findallQuoted (quoteItem g) = [g]
      have hform : quoteItem g = '"' :: (g ++ ('"' :: [])) := by simp [quoteItem]
      rw [hform]
      unfold findallQuoted
      rw [show findallAux none ('"' :: (g ++ ('"' :: [])))
          = findallAux (some []) (g ++ ('"' :: [])) from by simp [findallAux, h1]]
      rw [findallAux_group g [] [] hgq (Or.inr hgne)]
      simp [findallAux]
    | cons g2 gs'' =>
      have h2 : isQuoteCh ',' = false := rfl
      have h3 : isQuoteCh ' ' = false := rfl
      show findallQuoted (quoteItem g ++ (toL ", " ++ joinSep (toL ", ")
        ((g2 :: gs'').map quoteItem))) = g :: g2 :: gs''
      have hform : quoteItem g ++ (toL ", " ++ joinSep (toL ", ") ((g2 :: gs'').map quoteItem))
          = '"' :: (g ++ ('"' :: (toL ", " ++ joinSep (toL ", ") ((g2 :: gs'').map quoteItem)))) := by
        simp [quoteItem]
      rw [hform]
      unfold findallQuoted
      rw [show findallAux none ('"' :: (g ++ ('"' :: (toL ", " ++ joinSep (toL ", ")
            ((g2 :: gs'').map quoteItem)))))
          = findallAux (some []) (g ++ ('"' :: (toL ", " ++ joinSep (toL ", ")
            ((g2 :: gs'').map quoteItem)))) from by simp [findallAux, h1]]
      rw [findallAux_group g [] _ hgq (Or.inr hgne)]
      rw [show toL ", " ++ joinSep (toL ", ") ((g2 :: gs'').map quoteItem)
          = ',' :: (' ' :: joinSep (toL ", ") ((g2 :: gs'').map quoteItem)) from rfl]
      rw [show findallAux none (',' :: (' ' :: joinSep (toL ", ") ((g2 :: gs'').map quoteItem)))
          = findallAux none (joinSep (toL ", ") ((g2 :: gs'').map quoteItem)) from by
        simp [findallAux, h2, h3]]
      rw [show findallAux none (joinSep (toL ", ") ((g2 :: gs'').map quoteItem))
          = findallQuoted (joinSep (toL ", ") ((g2 :: gs'').map quoteItem)) from rfl]
      rw [ih hrest]
      simp

theorem joinSep_quote_getLast (sep : List Char) :
    ∀ gs : List (List Char), gs ≠ [] →
      (joinSep sep (gs.map quoteItem)).getLast? = some '"' := by
  intro gs
  induction gs with
  | nil => intro h; exact absurd rfl h
  | cons g gs' ih =>
    intro h
    cases gs' with
    | nil =>
      show (quoteItem g).getLast? = some '"'
      unfold quoteItem
      rw [show ('"' :: (g ++ ['"'])) = ('"' :: g) ++ ['"'] by simp]
      exact List.getLast?_concat _
    | cons g2 gs'' =>
      show (quoteItem g ++ (sep ++ joinSep sep ((g2 :: gs'').map quoteItem))).getLast? = some '"'
      rw [List.getLast?_append, List.getLast?_append, ih (by simp)]
      rfl

theorem lineSuffixesOf_mkFM (desc : List Char) (b : Bool) (gs : List (List Char))
    (hdn : '\n' ∉ desc) (hg : ∀ g ∈ gs, ∀ c ∈ g, c ≠ '\n') :
    lineSuffixesOf (mkFM desc b gs)
      = [mkFM desc b gs, aLineOf b ++ ('\n' :: gLineOf gs), gLineOf gs] := by
  unfold mkFM
  rw [lineSuffixesOf_append_nl (not_mem_dLineOf hdn),
    lineSuffixesOf_append_nl (not_mem_aLineOf b),
    lineSuffixesOf_no_nl (not_mem_gLineOf hg)]

theorem matchDesc_mkFM (desc : List Char) (b : Bool) (gs : List (List Char))
    (hdn : '\n' ∉ desc) :
    matchDesc (mkFM desc b gs) = some ('"' :: (desc ++ ['"'])) := by
  have hform : mkFM desc b gs
      = descKey ++ (' ' :: '"' :: ((desc ++ ['"'])
          ++ ('\n' :: (aLineOf b ++ ('\n' :: gLineOf gs))))) := by
    unfold mkFM dLineOf
    simp [List.append_assoc]
  rw [hform]
  unfold matchDesc
  rw [isPrefixOf_append_self]
  simp only [if_true]
  rw [List.drop_left]
  have hsp : pySpace ' ' = true := rfl
  have hq : pySpace '"' = false := rfl
  have htw : ((' ' :: '"' :: ((desc ++ ['"'])
      ++ ('\n' :: (aLineOf b ++ ('\n' :: gLineOf gs))))).takeWhile pySpace) = [' '] := by
    simp [List.takeWhile_cons, hsp, hq]
  rw [htw]
  show tryWs _ 1 = _
  have hdp : dotPlus ((' ' :: '"' :: ((desc ++ ['"'])
      ++ ('\n' :: (aLineOf b ++ ('\n' :: gLineOf gs))))).drop 1)
      = some ('"' :: (desc ++ ['"'])) := by
    show dotPlus ('"' :: ((desc ++ ['"']) ++ ('\n' :: (aLineOf b ++ ('\n' :: gLineOf gs))))) = _
    unfold dotPlus
    have hin : ∀ c ∈ ('"' :: (desc ++ ['"'])), (c != '\n') = true := by
      intro c hc
      rcases List.mem_cons.mp hc with h | h
      · rw [h]; decide
      · rcases List.mem_append.mp h with h | h
        · have : c ≠ '\n' := fun e => hdn (e ▸ h)
          exact bne_iff_ne.mpr this
        · have : c = '"' := by simpa using h
          rw [this]; decide
    rw [show ('"' :: ((desc ++ ['"']) ++ ('\n' :: (aLineOf b ++ ('\n' :: gLineOf gs)))))
        = ('"' :: (desc ++ ['"'])) ++ ('\n' :: (aLineOf b ++ ('\n' :: gLineOf gs))) from rfl]
    rw [takeWhile_append_stop hin (by decide)]
    simp
  simp only [tryWs, hdp]

theorem parseDescription_mkFM (desc : List Char) (b : Bool) (gs : List (List Char))
    (hdn : '\n' ∉ desc) :
    parseDescription (mkFM desc b gs) = some desc := by
  unfold parseDescription
  obtain ⟨ts, hts, -⟩ := lineSuffixesOf_decomp (mkFM desc b gs)
  rw [hts]
  have hm := matchDesc_mkFM desc b gs hdn
  simp only [firstMatch, hm]
  have h1fn : ∀ c, (('"' : Char) :: (desc ++ ['"'])).head? = some c → pySpace c = false := by
    intro c hc
    simp at hc
    rw [← hc]; rfl
  have h2fn : ∀ c, (('"' : Char) :: (desc ++ ['"'])).getLast? = some c → pySpace c = false := by
    intro c hc
    rw [show (('"' : Char) :: (desc ++ ['"'])) = ('"' :: desc) ++ ['"'] from by simp,
      List.getLast?_concat] at hc
    simp at hc
    rw [← hc]; rfl
  rw [trim_eq_self h1fn h2fn, stripQuotes_dquotes]

theorem matchAA_aLine (b : Bool) (X : List Char) :
    matchAA (aLineOf b ++ ('\n' :: X)) = some b := by
  unfold matchAA aLineOf
  rw [List.append_assoc, ciStarts_append_self]
  simp only [if_true]
  rw [List.drop_left]
  have h1 : pySpace ' ' = true := rfl
  cases b with
  | true =>
    simp only [if_true]
    rw [show ((' ' :: toL "true") ++ ('\n' :: X)) = ' ' :: (toL "true" ++ ('\n' :: X)) from rfl]
    have h2 : pySpace 't' = false := rfl
    rw [show (' ' :: (toL "true" ++ ('\n' :: X))).dropWhile pySpace
        = toL "true" ++ ('\n' :: X) from by
      rw [show toL "true" ++ ('\n' :: X) = 't' :: (toL "rue" ++ ('\n' :: X)) from rfl]
      simp [List.dropWhile_cons, h1, h2]]
    unfold matchBoolLit
    rw [ciStarts_append_self, show (toL "true" ++ ('\n' :: X)).drop 4 = '\n' :: X from
      List.drop_left' rfl]
    simp [lineEnds]
  | false =>
    simp only [Bool.false_eq_true, if_false]
    rw [show ((' ' :: toL "false") ++ ('\n' :: X)) = ' ' :: (toL "false" ++ ('\n' :: X)) from rfl]
    have h2 : pySpace 'f' = false := rfl
    rw [show (' ' :: (toL "false" ++ ('\n' :: X))).dropWhile pySpace
        = toL "false" ++ ('\n' :: X) from by
      rw [show toL "false" ++ ('\n' :: X) = 'f' :: (toL "alse" ++ ('\n' :: X)) from rfl]
      simp [List.dropWhile_cons, h1, h2]]
    unfold matchBoolLit
    rw [ciStarts_head_false (show (toL "true").head? = some 't' from rfl)
      (head?_append_left (show (toL "false").head? = some 'f' from rfl)) (by decide)]
    rw [ciStarts_append_self, show (toL "false" ++ ('\n' :: X)).drop 5 = '\n' :: X from
      List.drop_left' rfl]
    simp [lineEnds]

theorem parseAlwaysApply_mkFM (desc : List Char) (b : Bool) (gs : List (List Char))
    (hdn : '\n' ∉ desc) (hg : ∀ g ∈ gs, ∀ c ∈ g, c ≠ '\n') :
    parseAlwaysApply (mkFM desc b gs) = some b := by
  unfold parseAlwaysApply
  rw [lineSuffixesOf_mkFM desc b gs hdn hg]
  have hn1 : matchAA (mkFM desc b gs) = none := by
    unfold matchAA
    rw [ciStarts_head_false (show aaKey.head? = some 'a' from rfl)
      (show (mkFM desc b gs).head? = some 'd' from rfl) (by decide)]
    rfl
  have h2 : matchAA (aLineOf b ++ ('\n' :: gLineOf gs)) = some b := matchAA_aLine b _
  simp [firstMatch, hn1, h2]

theorem matchGlobsBracket_gLine (gs : List (List Char))
    (hg : ∀ g ∈ gs, ∀ c ∈ g, isQuoteCh c = false ∧ c ≠ ']') :
    matchGlobsBracket (gLineOf gs) = some (globsInner gs) := by
  unfold matchGlobsBracket gLineOf
  rw [isPrefixOf_append_self]
  simp only [if_true]
  rw [List.drop_left]
  have h1 : pySpace ' ' = true := rfl
  have h2 : pySpace '[' = false := rfl
  rw [show (' ' :: '[' :: (globsInner gs ++ [']'])).dropWhile pySpace
      = '[' :: (globsInner gs ++ [']']) from by simp [List.dropWhile_cons, h1, h2]]
  have hany : ((globsInner gs ++ [']']).any fun c => c == ']') = true := by
    simp [List.any_append]
  have hne : ∀ c ∈ globsInner gs, (c != ']') = true := by
    intro c hc
    rcases mem_joinSep hc with h | ⟨x, hx, hcx⟩
    · rw [show toL ", " = [',', ' '] from rfl] at h
      rcases List.mem_cons.mp h with h | h
      · rw [h]; decide
      · have : c = ' ' := by simpa using h
        rw [this]; decide
    · obtain ⟨g0, hg0, hq⟩ := List.mem_map.mp hx
      rw [← hq] at hcx
      unfold quoteItem at hcx
      rcases List.mem_cons.mp hcx with h | h
      · rw [h]; decide
      · rcases List.mem_append.mp h with h | h
        · exact bne_iff_ne.mpr (hg g0 hg0 c h).2
        · have : c = '"' := by simpa using h
          rw [this]; decide
  rw [show (globsInner gs ++ [']']) = globsInner gs ++ (']' :: []) from rfl] at hany ⊢
  simp only [hany, if_true]
  rw [takeWhile_append_stop hne (by decide)]

theorem parseGlobs_mkFM (desc : List Char) (b : Bool) (gs : List (List Char))
    (hdn : '\n' ∉ desc)
    (hg : ∀ g ∈ gs, g ≠ [] ∧ ∀ c ∈ g, isQuoteCh c = false ∧ c ≠ ']' ∧ c ≠ '\n') :
    parseGlobs (mkFM desc b gs) = some gs := by
  have hgnl : ∀ g ∈ gs, ∀ c ∈ g, c ≠ '\n' := fun g hgm c hcm => ((hg g hgm).2 c hcm).2.2
  have hgqb : ∀ g ∈ gs, ∀ c ∈ g, isQuoteCh c = false ∧ c ≠ ']' :=
    fun g hgm c hcm => ⟨((hg g hgm).2 c hcm).1, ((hg g hgm).2 c hcm).2.1⟩
  unfold parseGlobs
  rw [lineSuffixesOf_mkFM desc b gs hdn hgnl]
  have hn1 : matchGlobsBracket (mkFM desc b gs) = none := by
    unfold matchGlobsBracket
    rw [isPrefixOf_head_false (show gKey.head? = some 'g' from rfl)
      (show (mkFM desc b gs).head? = some 'd' from rfl) (by decide)]
    rfl
  have hn2 : matchGlobsBracket (aLineOf b ++ ('\n' :: gLineOf gs)) = none := by
    unfold matchGlobsBracket
    rw [isPrefixOf_head_false (show gKey.head? = some 'g' from rfl)
      (head?_append_left (show (aLineOf b).head? = some 'a' from by cases b <;> rfl))
      (by decide)]
    rfl
  have h3 := matchGlobsBracket_gLine gs hgqb
  rw [show firstMatch matchGlobsBracket
      [mkFM desc b gs, aLineOf b ++ ('\n' :: gLineOf gs), gLineOf gs]
      = some (globsInner gs) from by simp [firstMatch, hn1, hn2, h3]]
  cases gs with
  | nil => rfl
  | cons g gs' =>
    have hge : (globsInner (g :: gs')).head? = some '"' := by
      cases gs' with
      | nil => rfl
      | cons g2 gs'' =>
        show (quoteItem g ++ (toL ", " ++ joinSep (toL ", ")
          ((g2 :: gs'').map quoteItem))).head? = some '"'
        exact head?_append_left rfl
    have hgl : (globsInner (g :: gs')).getLast? = some '"' :=
      joinSep_quote_getLast (toL ", ") (g :: gs') (by simp)
    have htr : trim (globsInner (g :: gs')) = globsInner (g :: gs') := by
      apply trim_eq_self
      · intro c hc
        rw [hge] at hc
        simp at hc
        rw [← hc]; rfl
      · intro c hc
        rw [hgl] at hc
        simp at hc
        rw [← hc]; rfl
    show (if (trim (globsInner (g :: gs'))).isEmpty = true then some []
      else some (findallQuoted (trim (globsInner (g :: gs'))))) = some (g :: gs')
    rw [htr]
    have hnem : (globsInner (g :: gs')).isEmpty = false := by
      cases hgi : globsInner (g :: gs') with
      | nil => rw [hgi] at hge; simp at hge
      | cons a l => rfl
    simp only [hnem, Bool.false_eq_true, if_false]
    rw [show globsInner (g :: gs') = joinSep (toL ", ") ((g :: gs').map quoteItem) from rfl,
      findallQuoted_joinSep (g :: gs')
      (fun g2 hg2 => ⟨(hg g2 hg2).1, fun c hcm => ((hg g2 hg2).2 c hcm).1⟩)]

/-- C1: every schema-conforming file (delimited header; quoted non-blank
single-line description; boolean alwaysApply; single-line bracketed list of
quoted globs; body text) validates successfully, and the parsed
frontmatter fields equal the literal input values: the string, the boolean
and the list (including the empty list) round-trip exactly. -/
theorem c1_schema_roundtrip (st : VState) (p : String) (desc : List Char) (b : Bool)
    (gs : List (List Char)) (body : List Char) (hc : Conforming desc gs) :
    frontmatterMatch (mkContent desc b gs body) = some (mkFM desc b gs, body) ∧
    (validate_file st p (some (mkContent desc b gs body))).2.1 = true ∧
    (validate_file st p (some (mkContent desc b gs body))).2.2
      = ⟨some desc, some b, some gs⟩ := by
  obtain ⟨hdn, hdt, hg⟩ := hc
  have hgnl : ∀ g ∈ gs, ∀ c ∈ g, c ≠ '\n' := fun g hgm c hcm => ((hg g hgm).2 c hcm).2.2
  have hsplit : frontmatterMatch (mkContent desc b gs body) = some (mkFM desc b gs, body) := by
    unfold frontmatterMatch mkContent
    rw [isPrefixOf_append_self]
    simp only [if_true]
    rw [List.drop_left]
    exact splitOnMarker_append _ _ (mkFM_no_marker desc b gs body hdn hgnl)
  refine ⟨hsplit, ?_⟩
  rw [validate_file_parsed st p hsplit]
  rw [parseDescription_mkFM desc b gs hdn, parseAlwaysApply_mkFM desc b gs hdn hgnl,
    parseGlobs_mkFM desc b gs hdn hg]
  rw [checkFrontmatter_eq]
  have h1 : descCheck (incTotal st) p ⟨some desc, some b, some gs⟩ = (incTotal st, false) := by
    rcases descCheck_cases (incTotal st) p ⟨some desc, some b, some gs⟩ with
      ⟨hn, -⟩ | ⟨s, hs, hbl, -⟩ | ⟨s, -, -, heq⟩
    · cases hn
    · have hsd : s = desc := (Option.some.inj hs).symm
      rw [hsd, List.isEmpty_iff] at hbl
      exact absurd hbl hdt
    · exact heq
  have h2 : aaCheck (incTotal st) p ⟨some desc, some b, some gs⟩ = (incTotal st, false) := by
    rcases aaCheck_cases (incTotal st) p ⟨some desc, some b, some gs⟩ with
      ⟨hn, -⟩ | ⟨b2, -, heq⟩
    · cases hn
    · exact heq
  simp [h1, h2]

/-- Witness for C1 at the concrete example of the specification. -/
theorem c1_schema_roundtrip_w :
    toL "---\ndescription: \"Test rule\"\nalwaysApply: true\nglobs: [\"*.ts\"]\n---\nBody text"
      = mkContent (toL "Test rule") true [toL "*.ts"] (toL "Body text") ∧
    Conforming (toL "Test rule") [toL "*.ts"] ∧
    (validate_file initState "ex.mdc"
        (some (mkContent (toL "Test rule") true [toL "*.ts"] (toL "Body text")))).2.1 = true ∧
    (validate_file initState "ex.mdc"
        (some (mkContent (toL "Test rule") true [toL "*.ts"] (toL "Body text")))).2.2
      = ⟨some (toL "Test rule"), some true, some [toL "*.ts"]⟩ :=
  ⟨by decide, by decide,
   (c1_schema_roundtrip initState "ex.mdc" (toL "Test rule") true [toL "*.ts"]
      (toL "Body text") (by decide)).2.1,
   (c1_schema_roundtrip initState "ex.mdc" (toL "Test rule") true [toL "*.ts"]
      (toL "Body text") (by decide)).2.2⟩

end ValidateRules
